import Mathlib

/-!
# Blockchain data manager: ledger and access-control engine

A shallow embedding of `src/main.cpp`: the transaction/block data model, the
DJB2 hasher, the `Blockchain` ledger, the `DataManager` access-control table
and the dispatch of `processRequest`, followed by theorems about them.

Modelling conventions.
* `std::string` is a list of bytes (`Str`).
* `unsigned long` is 64 bits wide (LP64); arithmetic on it is on `Nat` with an
  explicit `% 2 ^ 64` after every operation.
* `time_t` values are `Int`; every call of `time(nullptr)` is an input of the
  model (a field of the request, or the argument of the constructor).
* `std::map<string, T>` is a partial function `Str → Option T`; `find` is
  application, `operator[]` inserts the default value when the key is absent.
* Stateful code is explicit state passing: an operation returns its result
  together with the new state.
-/

namespace BlockchainDataManager

/-! ## Strings -/

/-- One byte of a `std::string` (an `unsigned char`, 0..255). -/
abbrev Byte := Fin 256

/-- A `std::string`: a finite sequence of bytes. -/
abbrev Str := List Byte

/-- The bytes of an ASCII string literal of the source. -/
def lit (s : String) : Str := s.toList.map (fun c => Fin.ofNat c.toNat)

/-- The ASCII digit character of a decimal digit `d < 10`. -/
def digitByte (d : Nat) : Byte := Fin.ofNat (48 + d)

/-- Decimal digits of `n`, most significant first, pushed in front of `acc`;
`fuel` bounds the number of digits produced. -/
def to_stringAux : Nat → Nat → Str → Str
  | 0, _, acc => acc
  | fuel + 1, n, acc =>
    if n / 10 = 0 then digitByte (n % 10) :: acc
    else to_stringAux fuel (n / 10) (digitByte (n % 10) :: acc)

/-- `std::to_string` on an unsigned value (also `ostream << unsigned`): the
decimal representation, no sign, no leading zeros, `"0"` for zero. -/
def to_string (n : Nat) : Str := to_stringAux (n + 1) n []

/-- `ostream << x` for a signed integer (`int`, `time_t`): decimal, with a
leading `-` for negative values. -/
def showInt (i : Int) : Str :=
  if i < 0 then (45 : Byte) :: to_string i.natAbs else to_string i.natAbs

/-! ## Data model (lines 21-41) -/

/-- `enum TransactionType { REGISTER, GRANT, REVOKE, REQUEST }`. -/
inductive TransactionType where
  | REGISTER
  | GRANT
  | REVOKE
  | REQUEST
  deriving DecidableEq, Repr

/-- `static_cast<int>(type)`: the enumerators are numbered from 0. -/
def TransactionType.toInt : TransactionType → Int
  | .REGISTER => 0
  | .GRANT => 1
  | .REVOKE => 2
  | .REQUEST => 3

/-- `struct Transaction`; the defaults are those of value initialisation
`Transaction t{}`. -/
structure Transaction where
  type : TransactionType := .REGISTER
  owner : Str := []
  dataHash : Str := []
  metadata : Str := []
  recipient : Str := []
  requester : Str := []
  timestamp : Int := 0
  deriving DecidableEq, Repr

/-- `struct Block`; the defaults are those of value initialisation `Block b{}`. -/
structure Block where
  transactions : List Transaction := []
  prevHash : Str := []
  hash : Str := []
  timestamp : Int := 0
  deriving DecidableEq, Repr

/-! ## Hasher (lines 43-66) -/

/-- One round of the loop of `simpleHash`: `h = ((h << 5) + h) + c` on a
64-bit unsigned accumulator. -/
def hashStep (h : Nat) (c : Byte) : Nat :=
  ((((h * 2 ^ 5) % 2 ^ 64 + h) % 2 ^ 64) + c.val) % 2 ^ 64

/-- The accumulator of `simpleHash` after the loop. -/
def hashAcc (input : Str) : Nat := input.foldl hashStep 5381

/-- `simpleHash`: the decimal text of the final accumulator. -/
def simpleHash (input : Str) : Str := to_string (hashAcc input)

/-- What the loop body of `calculateBlockHash` writes for one transaction. -/
def serializeTransaction (t : Transaction) : Str :=
  showInt t.type.toInt ++ t.owner ++ t.dataHash ++ t.metadata ++ t.recipient
    ++ t.requester ++ showInt t.timestamp

/-- The content of the `ostringstream` of `calculateBlockHash` at its end. -/
def serializeBlock (block : Block) : Str :=
  block.transactions.foldl (fun oss t => oss ++ serializeTransaction t)
    (block.prevHash ++ showInt block.timestamp)

/-- `calculateBlockHash`. -/
def calculateBlockHash (block : Block) : Str := simpleHash (serializeBlock block)

/-! ## Ledger (lines 116-134) -/

/-- `class Blockchain` (the mutex is not part of the sequential state). -/
structure Blockchain where
  chain : List Block
  deriving DecidableEq, Repr

/-- The constructor `Blockchain::Blockchain()`; `now` is the value returned by
`time(nullptr)`. -/
def Blockchain.new (now : Int) : Blockchain :=
  let genesis : Block := {}
  let genesis := { genesis with timestamp := now }
  let genesis := { genesis with prevHash := lit "0" }
  let genesis := { genesis with hash := simpleHash (lit "genesis" ++ showInt genesis.timestamp) }
  { chain := [genesis] }

/-- `Blockchain::addBlock`: `chain.push_back(block)`. -/
def Blockchain.addBlock (bc : Blockchain) (block : Block) : Blockchain :=
  { bc with chain := bc.chain ++ [block] }

/-- `chain.back()`. On the empty vector `back()` is undefined in C++; the
constructor puts the genesis block in the chain and nothing removes a block,
so the model returns the value-initialised block there. -/
def Blockchain.back (bc : Blockchain) : Block := bc.chain.getLastD {}

/-! ## Access-control table (lines 136-176) -/

/-- `std::map<string, vector<string>>`. -/
abbrev VecMap := Str → Option (List Str)

/-- `m[k]` read as a value: the mapped vector, empty when `k` is absent (the
entry that `operator[]` creates is written by `VecMap.set`). -/
def VecMap.index (m : VecMap) (k : Str) : List Str := (m k).getD []

/-- The map with `m[k]` set to `v`. -/
def VecMap.set (m : VecMap) (k : Str) (v : List Str) : VecMap :=
  fun j => if j = k then some v else m j

/-- `class DataManager` (the mutex is not part of the sequential state). -/
structure DataManager where
  ownerData : VecMap
  accessList : VecMap

/-- The default-constructed `DataManager`: both maps empty. -/
def DataManager.new : DataManager :=
  { ownerData := fun _ => none, accessList := fun _ => none }

/-- `DataManager::registerData`. -/
def DataManager.registerData (dm : DataManager) (owner dataHash _metadata : Str) :
    Bool × DataManager :=
  (true, { dm with ownerData := dm.ownerData.set owner (dm.ownerData.index owner ++ [dataHash]) })

/-- `DataManager::grantAccess`. -/
def DataManager.grantAccess (dm : DataManager) (owner dataHash recipient : Str) :
    Bool × DataManager :=
  match dm.ownerData owner with
  | none => (false, dm)
  | some items =>
    if items.count dataHash = 0 then (false, dm)
    else
      (true, { dm with
        accessList := dm.accessList.set dataHash (dm.accessList.index dataHash ++ [recipient]) })

/-- `DataManager::revokeAccess`. `accessList[dataHash]` creates an empty entry
when the key is absent, before the recipient is searched. -/
def DataManager.revokeAccess (dm : DataManager) (owner dataHash recipient : Str) :
    Bool × DataManager :=
  match dm.ownerData owner with
  | none => (false, dm)
  | some items =>
    if items.count dataHash = 0 then (false, dm)
    else
      let vec := dm.accessList.index dataHash
      if recipient ∈ vec then
        (true, { dm with accessList := dm.accessList.set dataHash (vec.erase recipient) })
      else
        (false, { dm with accessList := dm.accessList.set dataHash vec })

/-- `DataManager::requestAccess`. -/
def DataManager.requestAccess (dm : DataManager) (requester dataHash : Str) :
    Bool × DataManager :=
  match dm.accessList dataHash with
  | none => (false, dm)
  | some vec => (decide (vec.count requester ≠ 0), dm)

/-! ## Request dispatch (lines 216-281) -/

/-- The two globals `blockchain` and `dataManager`. -/
structure State where
  blockchain : Blockchain
  dataManager : DataManager

/-- The state after static initialisation; `now` is the time read by the
constructor of `Blockchain`. -/
def State.init (now : Int) : State :=
  { blockchain := Blockchain.new now, dataManager := DataManager.new }

/-- What `processRequest` has in hand at line 216, together with the values
its calls of `time(nullptr)` return: `blockTime` at line 221, `txTime` in the
branch taken. `params` is the map returned by `parseBodyAll(body)`. -/
structure Request where
  method : Str
  path : Str
  params : Str → Option Str
  blockTime : Int
  txTime : Int

/-- `params[key]` read as a value: the mapped string, empty when `key` is
absent. (`params` is a local of `processRequest`; the entry that `operator[]`
creates in it is never observed.) -/
def Request.param (req : Request) (key : String) : Str := (req.params (lit key)).getD []

/-- Lines 232-234, common to the four branches: push the transaction, seal the
block, append it. -/
def sealAndAdd (bc : Blockchain) (block : Block) (t : Transaction) : Blockchain :=
  let block := { block with transactions := block.transactions ++ [t] }
  let block := { block with hash := calculateBlockHash block }
  bc.addBlock block

/-- Lines 216-281 of `processRequest`: the new state and `responseBody`. -/
def processRequest (st : State) (req : Request) : State × Str :=
  if req.method = lit "POST" then
    let t : Transaction := {}
    let block : Block := {}
    let block := { block with timestamp := req.blockTime }
    let block := { block with prevHash := st.blockchain.back.hash }
    if req.path = lit "/register" then
      let t := { t with type := .REGISTER }
      let t := { t with owner := req.param "owner" }
      let t := { t with dataHash := req.param "dataHash" }
      let t := { t with metadata := req.param "metadata" }
      let t := { t with timestamp := req.txTime }
      let (ok, dm) := st.dataManager.registerData t.owner t.dataHash t.metadata
      ({ blockchain := sealAndAdd st.blockchain block t, dataManager := dm },
        if ok then lit "Registration successful" else lit "Registration failed")
    else if req.path = lit "/grant" then
      let t := { t with type := .GRANT }
      let t := { t with owner := req.param "owner" }
      let t := { t with dataHash := req.param "dataHash" }
      let t := { t with recipient := req.param "recipient" }
      let t := { t with timestamp := req.txTime }
      let (ok, dm) := st.dataManager.grantAccess t.owner t.dataHash t.recipient
      ({ blockchain := sealAndAdd st.blockchain block t, dataManager := dm },
        if ok then lit "Access granted" else lit "Grant failed")
    else if req.path = lit "/revoke" then
      let t := { t with type := .REVOKE }
      let t := { t with owner := req.param "owner" }
      let t := { t with dataHash := req.param "dataHash" }
      let t := { t with recipient := req.param "recipient" }
      let t := { t with timestamp := req.txTime }
      let (ok, dm) := st.dataManager.revokeAccess t.owner t.dataHash t.recipient
      ({ blockchain := sealAndAdd st.blockchain block t, dataManager := dm },
        if ok then lit "Access revoked" else lit "Revoke failed")
    else if req.path = lit "/request" then
      let t := { t with type := .REQUEST }
      let t := { t with requester := req.param "requester" }
      let t := { t with dataHash := req.param "dataHash" }
      let t := { t with timestamp := req.txTime }
      let (ok, dm) := st.dataManager.requestAccess t.requester t.dataHash
      ({ blockchain := sealAndAdd st.blockchain block t, dataManager := dm },
        if ok then lit "Access granted to requester" else lit "Access denied")
    else
      (st, lit "Unknown POST endpoint")
  else
    (st, lit "Only POST requests are supported")

/-- Requests handled one after another: the final state and the response
bodies, in order. -/
def processAll (st : State) : List Request → State × List Str
  | [] => (st, [])
  | req :: rest =>
    let (st1, body) := processRequest st req
    let (st2, bodies) := processAll st1 rest
    (st2, body :: bodies)

/-- The paths that `processRequest` recognises. -/
def recognised (path : Str) : Bool :=
  path = lit "/register" || path = lit "/grant" || path = lit "/revoke" || path = lit "/request"

/-! ## Definitions used to state the properties -/

/-- The block that lines 232-234 append: `block` with `t` pushed and the hash
computed over the result. -/
def sealed (block : Block) (t : Transaction) : Block :=
  { transactions := block.transactions ++ [t],
    prevHash := block.prevHash,
    hash := calculateBlockHash
      { block with transactions := block.transactions ++ [t] },
    timestamp := block.timestamp }

/-- Every block but the first names the hash of the block before it. -/
def Linked (chain : List Block) : Prop :=
  List.Chain' (fun a b : Block => b.prevHash = a.hash) chain

/-- The chain starts with a block whose `prevHash` is `"0"` and is linked. -/
def WellLinked (chain : List Block) : Prop :=
  (∃ g, chain.head? = some g ∧ g.prevHash = lit "0") ∧ Linked chain

/-- The number of recognised POST requests in a sequence. -/
def recordedCount (reqs : List Request) : Nat :=
  reqs.countP (fun r => decide (r.method = lit "POST") && recognised r.path)

/-- A POST request to `path` whose decoded parameters are the listed pairs
(keys distinct). -/
def post (path : String) (kvs : List (String × String)) (blockTime txTime : Int) : Request :=
  { method := lit "POST",
    path := lit path,
    params := fun k => (kvs.find? (fun kv => decide (lit kv.1 = k))).map (fun kv => lit kv.2),
    blockTime := blockTime,
    txTime := txTime }

/-- The five requests of the end-to-end scenario of the specification; the
arguments are the times read while handling them. -/
def scenario (b1 t1 b2 t2 b3 t3 b4 t4 b5 t5 : Int) : List Request :=
  [post "/register" [("owner", "alice"), ("dataHash", "h1"), ("metadata", "m")] b1 t1,
   post "/grant" [("owner", "alice"), ("dataHash", "h1"), ("recipient", "bob")] b2 t2,
   post "/request" [("requester", "bob"), ("dataHash", "h1")] b3 t3,
   post "/revoke" [("owner", "alice"), ("dataHash", "h1"), ("recipient", "bob")] b4 t4,
   post "/request" [("requester", "bob"), ("dataHash", "h1")] b5 t5]

/-- The calls of the revoke/request symmetry property, made one after another
on the same table: `registerData(o, d, m)`, `grantAccess(o, d, r)`,
`requestAccess(r, d)`, `revokeAccess(o, d, r)`, `requestAccess(r, d)`; the
result is the list of the five return values. -/
def symmetryRun (dm : DataManager) (o d m r : Str) : List Bool :=
  let (registered, dm) := dm.registerData o d m
  let (granted, dm) := dm.grantAccess o d r
  let (before, dm) := dm.requestAccess r d
  let (revoked, dm) := dm.revokeAccess o d r
  let (after, _) := dm.requestAccess r d
  [registered, granted, before, revoked, after]

/-- The table reached from the empty one by `registerData("o", "d", "m")` and
`grantAccess("o", "d", "r")`. -/
def grantedOnce : DataManager :=
  ((DataManager.new.registerData (lit "o") (lit "d") (lit "m")).2.grantAccess
    (lit "o") (lit "d") (lit "r")).2

/-- The number that a string of decimal digits denotes. -/
def decimalValue (s : Str) : Nat := s.foldl (fun a b => a * 10 + (b.val - 48)) 0

/-- Two strings of the same length that differ in exactly one byte. -/
def OneByte (x y : Str) : Prop :=
  ∃ (u : Str) (c d : Byte) (w : Str), c ≠ d ∧ x = u ++ c :: w ∧ y = u ++ d :: w

/-- The transaction `t'` is `t` with the value of exactly one field replaced by
a different value. -/
inductive SingleFieldChange (t : Transaction) : Transaction → Prop
  | type (v : TransactionType) (h : v ≠ t.type) : SingleFieldChange t { t with type := v }
  | owner (v : Str) (h : v ≠ t.owner) : SingleFieldChange t { t with owner := v }
  | dataHash (v : Str) (h : v ≠ t.dataHash) : SingleFieldChange t { t with dataHash := v }
  | metadata (v : Str) (h : v ≠ t.metadata) : SingleFieldChange t { t with metadata := v }
  | recipient (v : Str) (h : v ≠ t.recipient) : SingleFieldChange t { t with recipient := v }
  | requester (v : Str) (h : v ≠ t.requester) : SingleFieldChange t { t with requester := v }
  | timestamp (v : Int) (h : v ≠ t.timestamp) : SingleFieldChange t { t with timestamp := v }

/-- The transaction `t'` is `t` with one field replaced so that the text
written for that field keeps its length and changes in exactly one byte: any
change of the type, a string field changed in one byte, or a timestamp whose
decimal text changes in one byte. -/
inductive OneByteChange (t : Transaction) : Transaction → Prop
  | type (v : TransactionType) (h : v ≠ t.type) : OneByteChange t { t with type := v }
  | owner (v : Str) (h : OneByte t.owner v) : OneByteChange t { t with owner := v }
  | dataHash (v : Str) (h : OneByte t.dataHash v) : OneByteChange t { t with dataHash := v }
  | metadata (v : Str) (h : OneByte t.metadata v) : OneByteChange t { t with metadata := v }
  | recipient (v : Str) (h : OneByte t.recipient v) : OneByteChange t { t with recipient := v }
  | requester (v : Str) (h : OneByte t.requester v) : OneByteChange t { t with requester := v }
  | timestamp (v : Int) (h : OneByte (showInt t.timestamp) (showInt v)) :
      OneByteChange t { t with timestamp := v }

/-- The request `req` with the parameter `key` present and mapped to `value`. -/
def Request.setParam (req : Request) (key value : Str) : Request :=
  { req with params := fun j => if j = key then some value else req.params j }

/-! ### Concurrent handlers

`startServer` runs `processRequest` in one detached thread per connection.
A handler touches the shared state in separate steps: it reads the tip of the
chain at line 222 (no lock is taken there), and later runs its table
operation and `addBlock` (each under the lock of its own object). The model
below cuts a handler at line 222 and lets a schedule interleave the steps of
several handlers; each step is atomic. -/

/-- Lines 219-222: the block under construction, stamped with the time and with
the hash of the tip read at that moment. -/
def prepareBlock (st : State) (req : Request) : Block :=
  let block : Block := {}
  let block := { block with timestamp := req.blockTime }
  let block := { block with prevHash := st.blockchain.back.hash }
  block

/-- Lines 224-277 run on a block prepared earlier: the branch of the path, on
the state as it is when the handler gets there. -/
def completeRequest (st : State) (req : Request) (block : Block) : State × Str :=
  let t : Transaction := {}
  if req.path = lit "/register" then
    let t := { t with type := .REGISTER }
    let t := { t with owner := req.param "owner" }
    let t := { t with dataHash := req.param "dataHash" }
    let t := { t with metadata := req.param "metadata" }
    let t := { t with timestamp := req.txTime }
    let (ok, dm) := st.dataManager.registerData t.owner t.dataHash t.metadata
    ({ blockchain := sealAndAdd st.blockchain block t, dataManager := dm },
      if ok then lit "Registration successful" else lit "Registration failed")
  else if req.path = lit "/grant" then
    let t := { t with type := .GRANT }
    let t := { t with owner := req.param "owner" }
    let t := { t with dataHash := req.param "dataHash" }
    let t := { t with recipient := req.param "recipient" }
    let t := { t with timestamp := req.txTime }
    let (ok, dm) := st.dataManager.grantAccess t.owner t.dataHash t.recipient
    ({ blockchain := sealAndAdd st.blockchain block t, dataManager := dm },
      if ok then lit "Access granted" else lit "Grant failed")
  else if req.path = lit "/revoke" then
    let t := { t with type := .REVOKE }
    let t := { t with owner := req.param "owner" }
    let t := { t with dataHash := req.param "dataHash" }
    let t := { t with recipient := req.param "recipient" }
    let t := { t with timestamp := req.txTime }
    let (ok, dm) := st.dataManager.revokeAccess t.owner t.dataHash t.recipient
    ({ blockchain := sealAndAdd st.blockchain block t, dataManager := dm },
      if ok then lit "Access revoked" else lit "Revoke failed")
  else if req.path = lit "/request" then
    let t := { t with type := .REQUEST }
    let t := { t with requester := req.param "requester" }
    let t := { t with dataHash := req.param "dataHash" }
    let t := { t with timestamp := req.txTime }
    let (ok, dm) := st.dataManager.requestAccess t.requester t.dataHash
    ({ blockchain := sealAndAdd st.blockchain block t, dataManager := dm },
      if ok then lit "Access granted to requester" else lit "Access denied")
  else
    (st, lit "Unknown POST endpoint")

/-- Where a handler thread stands: at line 217 with its request, past line 222
with its block prepared, or finished with its response body. -/
inductive Handler where
  | received (req : Request)
  | prepared (req : Request) (block : Block)
  | responded (body : Str)

/-- One step of one handler on the shared state. -/
def Handler.step (st : State) : Handler → State × Handler
  | .received req =>
    if req.method = lit "POST" then (st, .prepared req (prepareBlock st req))
    else (st, .responded (lit "Only POST requests are supported"))
  | .prepared req block =>
    let (st1, body) := completeRequest st req block
    (st1, .responded body)
  | .responded body => (st, .responded body)

/-- Whether the handler has sent its response. -/
def Handler.finished : Handler → Bool
  | .responded _ => true
  | _ => false

/-- The handler number `i` takes one step. -/
def stepAt (st : State) (hs : List Handler) (i : Nat) : State × List Handler :=
  match hs[i]? with
  | none => (st, hs)
  | some h =>
    let (st1, h1) := h.step st
    (st1, hs.set i h1)

/-- The handlers take steps in the order the schedule names them. -/
def runSchedule (st : State) (hs : List Handler) : List Nat → State × List Handler
  | [] => (st, hs)
  | i :: rest =>
    let (st1, hs1) := stepAt st hs i
    runSchedule st1 hs1 rest

/-- DJB2 as the specification words it: start from 5381 and, for each byte `c`
in order, replace `h` by `(h * 33 + c) mod 2^64`. -/
def djb2 (s : Str) : Nat := s.foldl (fun h c => (h * 33 + c.val) % 2 ^ 64) 5381

/-- The byte of a character (of an ASCII character, its code). -/
def charByte (c : Char) : Byte := Fin.ofNat c.toNat

/-- The decimal text of a transaction type: 0 for REGISTER, 1 for GRANT, 2 for
REVOKE, 3 for REQUEST. -/
def typeDigit : TransactionType → Str
  | .REGISTER => lit "0"
  | .GRANT => lit "1"
  | .REVOKE => lit "2"
  | .REQUEST => lit "3"

/-- The serialization of a block as the specification words it: `prevHash`,
the decimal text of the timestamp, and then for each transaction in order the
decimal text of its type, owner, dataHash, metadata, recipient, requester and
the decimal text of its timestamp, with no separators. -/
def serializationSpec (b : Block) : Str :=
  b.prevHash ++ showInt b.timestamp
    ++ (b.transactions.map (fun t =>
          typeDigit t.type ++ t.owner ++ t.dataHash ++ t.metadata ++ t.recipient
            ++ t.requester ++ showInt t.timestamp)).flatten

/-- The sealed-hash invariant of a chain: it starts with a genesis block
without transactions whose hash is that of `"genesis"` followed by its
timestamp, and every later block carries the hash computed over itself. -/
def SealedChain (chain : List Block) : Prop :=
  ∃ g rest, chain = g :: rest ∧ g.transactions = []
    ∧ g.hash = simpleHash (lit "genesis" ++ showInt g.timestamp)
    ∧ ∀ b ∈ rest, b.hash = calculateBlockHash b

/-- One call of a method of `DataManager`, with its arguments. -/
inductive TableOp where
  | registerData (owner dataHash metadata : Str)
  | grantAccess (owner dataHash recipient : Str)
  | revokeAccess (owner dataHash recipient : Str)
  | requestAccess (requester dataHash : Str)

/-- The call made on the table: its return value and the table after it. -/
def DataManager.call (dm : DataManager) : TableOp → Bool × DataManager
  | .registerData owner dataHash metadata => dm.registerData owner dataHash metadata
  | .grantAccess owner dataHash recipient => dm.grantAccess owner dataHash recipient
  | .revokeAccess owner dataHash recipient => dm.revokeAccess owner dataHash recipient
  | .requestAccess requester dataHash => dm.requestAccess requester dataHash

/-- A sequence of calls made one after another: the return values, in order,
and the final table. -/
def DataManager.callAll (dm : DataManager) : List TableOp → List Bool × DataManager
  | [] => ([], dm)
  | op :: rest =>
    let (result, dm1) := dm.call op
    let (results, dm2) := dm1.callAll rest
    (result :: results, dm2)

/-- Every key of `accessList` is a dataHash that some owner has registered. -/
def AccessListsRegistered (dm : DataManager) : Prop :=
  ∀ d, dm.accessList d ≠ none → ∃ o items, dm.ownerData o = some items ∧ d ∈ items

/-- Two tables that no call can tell apart: the same `ownerData`, and the same
recipient list for every dataHash, an absent key counted as the empty list. -/
def SameLists (dm1 dm2 : DataManager) : Prop :=
  dm1.ownerData = dm2.ownerData ∧ ∀ k, dm1.accessList.index k = dm2.accessList.index k

/-! ## Helper lemmas: the ledger -/

theorem sealAndAdd_chain (bc : Blockchain) (block : Block) (t : Transaction) :
    (sealAndAdd bc block t).chain = bc.chain ++ [sealed block t] := by
  simp [sealAndAdd, Blockchain.addBlock, sealed]

theorem recognised_iff (path : Str) :
    recognised path = true ↔
      path = lit "/register" ∨ path = lit "/grant" ∨ path = lit "/revoke"
        ∨ path = lit "/request" := by
  simp [recognised, or_assoc]

/-- The effect of one request on the chain: a recognised POST appends one
sealed block whose `prevHash` is the hash of the old tip; anything else
leaves the chain as it is. -/
theorem processRequest_chain (st : State) (req : Request) :
    (req.method = lit "POST" ∧ recognised req.path = true ∧
      ∃ t : Transaction, (processRequest st req).1.blockchain.chain =
        st.blockchain.chain ++
          [sealed { timestamp := req.blockTime, prevHash := st.blockchain.back.hash } t])
    ∨ (¬ (req.method = lit "POST" ∧ recognised req.path = true) ∧
        (processRequest st req).1.blockchain.chain = st.blockchain.chain) := by
  by_cases hm : req.method = lit "POST"
  · by_cases h1 : req.path = lit "/register"
    · left
      refine ⟨hm, (recognised_iff _).2 (Or.inl h1), ?_⟩
      simp only [processRequest, hm, h1, if_true, DataManager.registerData, sealAndAdd_chain]
      exact ⟨_, rfl⟩
    · by_cases h2 : req.path = lit "/grant"
      · left
        refine ⟨hm, (recognised_iff _).2 (Or.inr (Or.inl h2)), ?_⟩
        simp only [processRequest, hm, h1, h2, if_true, if_false, sealAndAdd_chain]
        exact ⟨_, rfl⟩
      · by_cases h3 : req.path = lit "/revoke"
        · left
          refine ⟨hm, (recognised_iff _).2 (Or.inr (Or.inr (Or.inl h3))), ?_⟩
          simp only [processRequest, hm, h1, h2, h3, if_true, if_false, sealAndAdd_chain]
          exact ⟨_, rfl⟩
        · by_cases h4 : req.path = lit "/request"
          · left
            refine ⟨hm, (recognised_iff _).2 (Or.inr (Or.inr (Or.inr h4))), ?_⟩
            simp only [processRequest, hm, h1, h2, h3, h4, if_true, if_false, sealAndAdd_chain]
            exact ⟨_, rfl⟩
          · right
            refine ⟨fun h => ?_, ?_⟩
            · rcases (recognised_iff _).1 h.2 with h | h | h | h <;> contradiction
            · simp [processRequest, hm, h1, h2, h3, h4]
  · right
    exact ⟨fun h => hm h.1, by simp [processRequest, hm]⟩

theorem wellLinked_init (now : Int) : WellLinked (State.init now).blockchain.chain := by
  refine ⟨⟨_, rfl, rfl⟩, ?_⟩
  simp [Linked, State.init, Blockchain.new]

theorem linked_append_tip (bc : Blockchain) (b : Block) (h : Linked bc.chain)
    (hb : b.prevHash = bc.back.hash) : Linked (bc.chain ++ [b]) := by
  refine List.Chain'.append h (List.chain'_singleton b) ?_
  intro x hx y hy
  simp only [List.head?_cons, Option.mem_def, Option.some.injEq] at hy
  rw [Option.mem_def] at hx
  subst hy
  rw [hb, Blockchain.back, List.getLastD_eq_getLast?, hx]
  rfl

theorem wellLinked_processRequest (st : State) (req : Request)
    (h : WellLinked st.blockchain.chain) :
    WellLinked (processRequest st req).1.blockchain.chain := by
  rcases processRequest_chain st req with ⟨_, _, t, ht⟩ | ⟨_, hsame⟩
  · rw [ht]
    obtain ⟨⟨g, hg, hg0⟩, hl⟩ := h
    refine ⟨⟨g, ?_, hg0⟩, linked_append_tip _ _ hl rfl⟩
    rw [List.head?_append, hg]
    rfl
  · rw [hsame]
    exact h

theorem wellLinked_processAll (reqs : List Request) (st : State)
    (h : WellLinked st.blockchain.chain) :
    WellLinked (processAll st reqs).1.blockchain.chain := by
  induction reqs generalizing st with
  | nil => exact h
  | cons req rest ih =>
    simp only [processAll]
    exact ih _ (wellLinked_processRequest st req h)

/-- The indexed reading of `Linked`. -/
theorem linked_index (chain : List Block) (h : Linked chain) (n : Nat) (h0 : 0 < n)
    (hn : n < chain.length) : chain[n].prevHash = chain[n - 1].hash := by
  have key := List.chain'_iff_get.1 h (n - 1) (by omega)
  simp only [List.get_eq_getElem] at key
  have e : n - 1 + 1 = n := by omega
  simpa only [e] using key

theorem processRequest_length (st : State) (req : Request) :
    (processRequest st req).1.blockchain.chain.length =
      st.blockchain.chain.length + recordedCount [req] := by
  rcases processRequest_chain st req with ⟨hm, hr, t, ht⟩ | ⟨hno, hsame⟩
  · rw [ht]
    simp [recordedCount, hm, hr]
  · rw [hsame]
    have : (decide (req.method = lit "POST") && recognised req.path) = false := by
      by_cases hm : req.method = lit "POST"
      · simp only [hm, true_and, Bool.not_eq_true] at hno
        simp [hm, hno]
      · simp [hm]
    simp [recordedCount, this]

theorem processAll_length (reqs : List Request) (st : State) :
    (processAll st reqs).1.blockchain.chain.length =
      st.blockchain.chain.length + recordedCount reqs := by
  induction reqs generalizing st with
  | nil => simp [processAll, recordedCount]
  | cons req rest ih =>
    simp only [processAll]
    rw [ih, processRequest_length]
    simp only [recordedCount, List.countP_cons, List.countP_nil]
    omega

/-! ## The ledger claims -/

/-- C1. Chain linkage is an invariant of sequential request handling: from the
freshly constructed state and for every finite sequence of requests, the first
block of the resulting chain has `prevHash == "0"` and every later block's
`prevHash` is the hash of the block before it. -/
theorem chain_linkage_invariant (now : Int) (reqs : List Request) :
    (∃ g, (processAll (State.init now) reqs).1.blockchain.chain[0]? = some g
        ∧ g.prevHash = lit "0")
    ∧ ∀ (n : Nat) (_ : 0 < n)
        (_ : n < (processAll (State.init now) reqs).1.blockchain.chain.length),
        (processAll (State.init now) reqs).1.blockchain.chain[n].prevHash
          = (processAll (State.init now) reqs).1.blockchain.chain[n - 1].hash := by
  obtain ⟨⟨g, hg, hg0⟩, hl⟩ := wellLinked_processAll reqs _ (wellLinked_init now)
  refine ⟨⟨g, ?_, hg0⟩, fun n h0 hn => linked_index _ hl n h0 hn⟩
  rw [← hg, List.head?_eq_getElem?]

/-- C1 at a concrete run: after one `/register` the block at index 1 names the
hash of the genesis block. -/
theorem chain_linkage_invariant_witness :
    ∃ h : 1 < (processAll (State.init 0)
        [post "/register" [("owner", "alice"), ("dataHash", "h1")] 1 1]).1.blockchain.chain.length,
      (processAll (State.init 0)
        [post "/register" [("owner", "alice"), ("dataHash", "h1")] 1 1]).1.blockchain.chain[1].prevHash
      = (processAll (State.init 0)
        [post "/register" [("owner", "alice"), ("dataHash", "h1")] 1 1]).1.blockchain.chain[0].hash :=
  ⟨by decide, (chain_linkage_invariant 0
    [post "/register" [("owner", "alice"), ("dataHash", "h1")] 1 1]).2 1 (by decide) (by decide)⟩

/-- C2. Append-only length: for every finite sequence of POST requests handled
from the initial state, the final chain length is 1 plus the number of requests
whose path is one of `/register`, `/grant`, `/revoke`, `/request`; a request
with any other path leaves the length as it is. -/
theorem chain_length_append_only (now : Int) (reqs : List Request)
    (hpost : ∀ r ∈ reqs, r.method = lit "POST") :
    (processAll (State.init now) reqs).1.blockchain.chain.length
        = 1 + reqs.countP (fun r => recognised r.path)
    ∧ ∀ (st : State) (r : Request), recognised r.path = false →
        (processRequest st r).1.blockchain.chain.length = st.blockchain.chain.length := by
  constructor
  · rw [processAll_length]
    have hc : recordedCount reqs = reqs.countP (fun r => recognised r.path) := by
      unfold recordedCount
      apply List.countP_congr
      intro r hr
      simp [hpost r hr]
    rw [hc]
    simp [State.init, Blockchain.new, Nat.add_comm]
  · intro st r hr
    rw [processRequest_length]
    simp [recordedCount, hr]

/-- C2 at a concrete run: a recognised and an unknown path give length 2. -/
theorem chain_length_append_only_witness :
    (processAll (State.init 0)
        [post "/register" [("owner", "alice")] 1 1, post "/other" [] 2 2]).1.blockchain.chain.length
      = 1 + [post "/register" [("owner", "alice")] 1 1, post "/other" [] 2 2].countP
          (fun r => recognised r.path) :=
  (chain_length_append_only 0
    [post "/register" [("owner", "alice")] 1 1, post "/other" [] 2 2] (by decide)).1

/-- C3. Past blocks are never rewritten: for every state and every request, the
chain before the request is a prefix of the chain after it, so the first
`chain.size()` blocks afterwards are the old blocks, unchanged and in place;
`addBlock(b)` yields exactly the old chain followed by `b`, whatever `b` is. -/
theorem past_blocks_never_rewritten (st : State) (req : Request) (bc : Blockchain) (b : Block) :
    st.blockchain.chain <+: (processRequest st req).1.blockchain.chain
    ∧ (processRequest st req).1.blockchain.chain.take st.blockchain.chain.length
        = st.blockchain.chain
    ∧ (bc.addBlock b).chain = bc.chain ++ [b] := by
  have hp : st.blockchain.chain <+: (processRequest st req).1.blockchain.chain := by
    rcases processRequest_chain st req with ⟨_, _, t, ht⟩ | ⟨_, hsame⟩
    · rw [ht]
      exact List.prefix_append _ _
    · rw [hsame]
  refine ⟨hp, ?_, rfl⟩
  obtain ⟨tl, htl⟩ := hp
  rw [← htl, List.take_left]

/-- C4, as stated, fails: the scenario has five recognised requests, so with
the genesis block the chain has 6 blocks, not 5 (all clock readings 0). -/
theorem end_to_end_scenario_not_five_blocks :
    (processAll (State.init 0) (scenario 0 0 0 0 0 0 0 0 0 0)).1.blockchain.chain.length = 6
    ∧ (processAll (State.init 0) (scenario 0 0 0 0 0 0 0 0 0 0)).1.blockchain.chain.length
        ≠ 5 := by
  have hlen := processAll_length (scenario 0 0 0 0 0 0 0 0 0 0) (State.init 0)
  have hcount : recordedCount (scenario 0 0 0 0 0 0 0 0 0 0) = 5 := by decide
  have hinit : (State.init 0).blockchain.chain.length = 1 := rfl
  rw [hcount, hinit] at hlen
  rw [hlen]
  exact ⟨rfl, by decide⟩

/-- C4, amended. End-to-end scenario: from the initial state, register / grant /
request / revoke / request for alice, h1, bob answer "Registration successful",
"Access granted", "Access granted to requester", "Access revoked",
"Access denied", and leave a chain of exactly 6 blocks (genesis and one block
per request) in which every non-genesis block's `prevHash` is its
predecessor's hash, whatever the clock readings are. -/
theorem end_to_end_scenario (now b1 t1 b2 t2 b3 t3 b4 t4 b5 t5 : Int) :
    (processAll (State.init now) (scenario b1 t1 b2 t2 b3 t3 b4 t4 b5 t5)).2
      = [lit "Registration successful", lit "Access granted",
         lit "Access granted to requester", lit "Access revoked", lit "Access denied"]
    ∧ ∃ g k1 k2 k3 k4 k5 : Block,
        (processAll (State.init now) (scenario b1 t1 b2 t2 b3 t3 b4 t4 b5 t5)).1.blockchain.chain
          = [g, k1, k2, k3, k4, k5]
        ∧ g.prevHash = lit "0" ∧ k1.prevHash = g.hash ∧ k2.prevHash = k1.hash
        ∧ k3.prevHash = k2.hash ∧ k4.prevHash = k3.hash ∧ k5.prevHash = k4.hash := by
  constructor
  · simp +decide [scenario, processAll, processRequest, post, Request.param,
      DataManager.registerData, DataManager.grantAccess, DataManager.revokeAccess,
      DataManager.requestAccess, VecMap.set, VecMap.index, State.init, DataManager.new]
  · have hlen := processAll_length (scenario b1 t1 b2 t2 b3 t3 b4 t4 b5 t5) (State.init now)
    have hcount : recordedCount (scenario b1 t1 b2 t2 b3 t3 b4 t4 b5 t5) = 5 := by
      simp +decide [recordedCount, scenario, post]
    have hinit : (State.init now).blockchain.chain.length = 1 := rfl
    rw [hcount, hinit] at hlen
    obtain ⟨⟨g0, hg, hg0⟩, hl⟩ :=
      wellLinked_processAll (scenario b1 t1 b2 t2 b3 t3 b4 t4 b5 t5) _ (wellLinked_init now)
    generalize (processAll (State.init now)
      (scenario b1 t1 b2 t2 b3 t3 b4 t4 b5 t5)).1.blockchain.chain = chain at hlen hg hl
    match chain, hlen, hg, hl with
    | [g, k1, k2, k3, k4, k5], _, hg, hl =>
      simp only [List.head?_cons, Option.some.injEq] at hg
      subst hg
      simp only [Linked, List.chain'_cons, List.chain'_singleton, and_true] at hl
      exact ⟨_, _, _, _, _, _, rfl, hg0, hl.1, hl.2.1, hl.2.2.1, hl.2.2.2.1, hl.2.2.2.2⟩

/-! ## Helper lemmas: maps -/

theorem VecMap.set_self (m : VecMap) (k : Str) (v : List Str) : m.set k v k = some v := by
  simp [VecMap.set]

theorem VecMap.set_other (m : VecMap) (k j : Str) (v : List Str) (h : j ≠ k) :
    m.set k v j = m j := by
  simp [VecMap.set, h]

theorem VecMap.index_set_self (m : VecMap) (k : Str) (v : List Str) :
    (m.set k v).index k = v := by
  simp [VecMap.index, VecMap.set]

/-! ## The access-control table claims -/

/-- C5. `grantAccess(owner, dataHash, recipient)` returns true exactly when
`owner` is a key of `ownerData` and `dataHash` occurs in `ownerData[owner]`.
When it returns true, `accessList[dataHash]` is its old value (empty if absent)
with `recipient` appended at the end, and nothing else in the table changes;
when it returns false the whole table is unchanged. -/
theorem grantAccess_contract (dm : DataManager) (owner dataHash recipient : Str) :
    ((dm.grantAccess owner dataHash recipient).1 = true ↔
      ∃ items, dm.ownerData owner = some items ∧ dataHash ∈ items)
    ∧ ((dm.grantAccess owner dataHash recipient).1 = true →
        (dm.grantAccess owner dataHash recipient).2.accessList dataHash
            = some (dm.accessList.index dataHash ++ [recipient])
        ∧ (∀ k, k ≠ dataHash →
            (dm.grantAccess owner dataHash recipient).2.accessList k = dm.accessList k)
        ∧ (dm.grantAccess owner dataHash recipient).2.ownerData = dm.ownerData)
    ∧ ((dm.grantAccess owner dataHash recipient).1 = false →
        (dm.grantAccess owner dataHash recipient).2 = dm) := by
  unfold DataManager.grantAccess
  cases hown : dm.ownerData owner with
  | none => simp
  | some items =>
    by_cases hc : items.count dataHash = 0
    · have hmem : dataHash ∉ items := List.count_eq_zero.1 hc
      simp [hc, hmem]
    · have hmem : dataHash ∈ items := by
        by_contra hno
        exact hc (List.count_eq_zero.2 hno)
      simp only [hc, if_false]
      refine ⟨⟨fun _ => ⟨items, rfl, hmem⟩, fun _ => trivial⟩, fun _ => ⟨?_, ?_, trivial⟩, ?_⟩
      · simp [VecMap.set]
      · intro k hk
        simp [VecMap.set, hk]
      · intro h
        cases h

/-- C6. `revokeAccess(owner, dataHash, recipient)` returns true exactly when
`owner` is a key of `ownerData`, `dataHash` occurs in `ownerData[owner]` and
`recipient` occurs in `accessList[dataHash]`. When it returns true,
`accessList[dataHash]` is its old value with exactly the first occurrence of
`recipient` removed (the entries before and after it kept in order), and
`ownerData` and every other access list are unchanged. -/
theorem revokeAccess_contract (dm : DataManager) (owner dataHash recipient : Str) :
    ((dm.revokeAccess owner dataHash recipient).1 = true ↔
      ∃ items, dm.ownerData owner = some items ∧ dataHash ∈ items
        ∧ recipient ∈ dm.accessList.index dataHash)
    ∧ ((dm.revokeAccess owner dataHash recipient).1 = true →
        (∃ before after, dm.accessList.index dataHash = before ++ recipient :: after
            ∧ recipient ∉ before
            ∧ (dm.revokeAccess owner dataHash recipient).2.accessList dataHash
                = some (before ++ after))
        ∧ (∀ k, k ≠ dataHash →
            (dm.revokeAccess owner dataHash recipient).2.accessList k = dm.accessList k)
        ∧ (dm.revokeAccess owner dataHash recipient).2.ownerData = dm.ownerData) := by
  unfold DataManager.revokeAccess
  cases hown : dm.ownerData owner with
  | none => simp
  | some items =>
    by_cases hc : items.count dataHash = 0
    · have hmem : dataHash ∉ items := List.count_eq_zero.1 hc
      simp [hc, hmem]
    · have hmem : dataHash ∈ items := by
        by_contra hno
        exact hc (List.count_eq_zero.2 hno)
      by_cases hr : recipient ∈ dm.accessList.index dataHash
      · simp only [hc, hr, if_false, if_true]
        refine ⟨⟨fun _ => ⟨items, rfl, hmem, trivial⟩, fun _ => trivial⟩, fun _ => ⟨?_, ?_, trivial⟩⟩
        · obtain ⟨before, after, hnot, hsplit, herase⟩ := List.exists_erase_eq hr
          refine ⟨before, after, hsplit, hnot, ?_⟩
          simp [VecMap.set, herase]
        · intro k hk
          simp [VecMap.set, hk]
      · simp [hc, hr]

/-- C7. `requestAccess(requester, dataHash)` returns true exactly when
`dataHash` is a key of `accessList` and `requester` occurs in
`accessList[dataHash]`; it returns false when `dataHash` is unknown; and it
never changes the table. -/
theorem requestAccess_contract (dm : DataManager) (requester dataHash : Str) :
    ((dm.requestAccess requester dataHash).1 = true ↔
      ∃ vec, dm.accessList dataHash = some vec ∧ requester ∈ vec)
    ∧ (dm.accessList dataHash = none → (dm.requestAccess requester dataHash).1 = false)
    ∧ (dm.requestAccess requester dataHash).2 = dm := by
  unfold DataManager.requestAccess
  cases hacc : dm.accessList dataHash with
  | none => simp
  | some vec => simp [List.count_eq_zero]

/-- C8. `registerData(owner, dataHash, metadata)` returns true for every input
and every table state; its only effect is that `ownerData[owner]` becomes its old
value (empty if absent) with `dataHash` appended at the end, `accessList` and
every other owner's list being unchanged. Registering the same
`(owner, dataHash)` twice succeeds both times and raises the number of
occurrences of `dataHash` in `ownerData[owner]` by two. -/
theorem registerData_contract (dm : DataManager) (owner dataHash metadata metadata2 : Str) :
    (dm.registerData owner dataHash metadata).1 = true
    ∧ (dm.registerData owner dataHash metadata).2.ownerData owner
        = some (dm.ownerData.index owner ++ [dataHash])
    ∧ (∀ k, k ≠ owner →
        (dm.registerData owner dataHash metadata).2.ownerData k = dm.ownerData k)
    ∧ (dm.registerData owner dataHash metadata).2.accessList = dm.accessList
    ∧ ((dm.registerData owner dataHash metadata).2.registerData owner dataHash metadata2).1
        = true
    ∧ (((dm.registerData owner dataHash metadata).2.registerData
          owner dataHash metadata2).2.ownerData.index owner).count dataHash
        = (dm.ownerData.index owner).count dataHash + 2 := by
  refine ⟨rfl, ?_, ?_, rfl, rfl, ?_⟩
  · simp [DataManager.registerData, VecMap.set]
  · intro k hk
    simp [DataManager.registerData, VecMap.set, hk]
  · simp [DataManager.registerData, VecMap.set, VecMap.index, List.count_append]

/-- C9, as stated, fails: in a table where `r` already has access to `d`, the
grant adds a second entry, the revoke removes only the first, and the request
after the revoke still returns true. -/
theorem revoke_request_symmetry_fails_on_duplicate :
    symmetryRun grantedOnce (lit "o") (lit "d") (lit "m") (lit "r")
      = [true, true, true, true, true] := by
  decide

/-- C9, amended. After `registerData(o, d, m)` and `grantAccess(o, d, r)` (both
succeed), `requestAccess(r, d)` returns true in every table state; the
following `revokeAccess(o, d, r)` succeeds, and after it `requestAccess(r, d)`
returns false exactly when `r` did not already occur in `accessList[d]` before
the grant. -/
theorem revoke_request_symmetry (dm : DataManager) (o d m r : Str) :
    symmetryRun dm o d m r
      = [true, true, true, true, decide (r ∈ dm.accessList.index d)] := by
  have hcount : List.count d (dm.ownerData.index o ++ [d]) ≠ 0 := by
    simp [List.count_append]
  have herase : (dm.accessList.index d ++ [r]).erase r
      = if r ∈ dm.accessList.index d then (dm.accessList.index d).erase r ++ [r]
        else dm.accessList.index d := by
    by_cases h : r ∈ dm.accessList.index d
    · simp [h, List.erase_append_left _ h]
    · simp [h, List.erase_append_right _ h]
  by_cases h : r ∈ dm.accessList.index d
  · simp [symmetryRun, DataManager.registerData, DataManager.grantAccess,
      DataManager.requestAccess, DataManager.revokeAccess, VecMap.set_self,
      VecMap.index_set_self, hcount, herase, h, List.count_append]
    exact fun hc => List.count_eq_zero.1 hc h
  · simp [symmetryRun, DataManager.registerData, DataManager.grantAccess,
      DataManager.requestAccess, DataManager.revokeAccess, VecMap.set_self,
      VecMap.index_set_self, hcount, herase, h, List.count_append, List.count_eq_zero]

/-! ## Helper lemmas: decimal text and the hasher -/

theorem decimalFold_eq (s : Str) (a : Nat) :
    s.foldl (fun a b => a * 10 + (b.val - 48)) a = a * 10 ^ s.length + decimalValue s := by
  induction s generalizing a with
  | nil => simp [decimalValue]
  | cons b s ih =>
    simp only [List.foldl_cons, decimalValue, List.length_cons]
    rw [ih, ih (0 * 10 + (b.val - 48))]
    ring

theorem decimalValue_cons (b : Byte) (s : Str) :
    decimalValue (b :: s) = (b.val - 48) * 10 ^ s.length + decimalValue s := by
  simp only [decimalValue, List.foldl_cons]
  rw [decimalFold_eq]
  simp [decimalValue]

theorem digitByte_val (d : Nat) (h : d < 10) : (digitByte d).val = 48 + d := by
  simp only [digitByte, Fin.ofNat, Fin.val_mk]
  omega

theorem decimalValue_to_stringAux (fuel n : Nat) (acc : Str) (h : n < fuel) :
    decimalValue (to_stringAux fuel n acc) = n * 10 ^ acc.length + decimalValue acc := by
  induction fuel generalizing n acc with
  | zero => omega
  | succ fuel ih =>
    have hd : (digitByte (n % 10)).val - 48 = n % 10 := by
      rw [digitByte_val _ (Nat.mod_lt _ (by decide))]
      omega
    unfold to_stringAux
    by_cases hz : n / 10 = 0
    · rw [if_pos hz, decimalValue_cons, hd]
      have : n % 10 = n := by omega
      rw [this]
    · rw [if_neg hz, ih _ _ (by omega), decimalValue_cons, hd, List.length_cons, pow_succ]
      have := Nat.div_add_mod n 10
      calc n / 10 * (10 ^ acc.length * 10) + (n % 10 * 10 ^ acc.length + decimalValue acc)
          = (10 * (n / 10) + n % 10) * 10 ^ acc.length + decimalValue acc := by ring
        _ = n * 10 ^ acc.length + decimalValue acc := by rw [this]

/-- `to_string` can be read back: distinct numbers have distinct decimal texts. -/
theorem decimalValue_to_string (n : Nat) : decimalValue (to_string n) = n := by
  rw [to_string, decimalValue_to_stringAux _ _ _ (Nat.lt_succ_self n)]
  simp [decimalValue]

theorem to_string_injective {a b : Nat} (h : to_string a = to_string b) : a = b := by
  rw [← decimalValue_to_string a, ← decimalValue_to_string b, h]

theorem to_stringAux_digits (fuel n : Nat) (acc : Str) (b : Byte)
    (hb : b ∈ to_stringAux fuel n acc) : b ∈ acc ∨ 48 ≤ b.val := by
  induction fuel generalizing n acc with
  | zero => exact Or.inl hb
  | succ fuel ih =>
    have hd : 48 ≤ (digitByte (n % 10)).val := by
      rw [digitByte_val _ (Nat.mod_lt _ (by decide))]
      omega
    unfold to_stringAux at hb
    by_cases hz : n / 10 = 0
    · rw [if_pos hz] at hb
      rcases List.mem_cons.1 hb with h | h
      · exact Or.inr (h ▸ hd)
      · exact Or.inl h
    · rw [if_neg hz] at hb
      rcases ih _ _ hb with h | h
      · rcases List.mem_cons.1 h with h | h
        · exact Or.inr (h ▸ hd)
        · exact Or.inl h
      · exact Or.inr h

theorem to_string_no_minus (n : Nat) : (45 : Byte) ∉ to_string n := by
  intro h
  rcases to_stringAux_digits _ _ _ _ h with h | h
  · cases h
  · exact absurd h (by decide)

theorem showInt_injective {i j : Int} (h : showInt i = showInt j) : i = j := by
  unfold showInt at h
  by_cases hi : i < 0 <;> by_cases hj : j < 0
  · rw [if_pos hi, if_pos hj] at h
    have := to_string_injective (List.cons.inj h).2
    omega
  · rw [if_pos hi, if_neg hj] at h
    exact absurd (h ▸ List.mem_cons_self _ _) (to_string_no_minus _)
  · rw [if_neg hi, if_pos hj] at h
    exact absurd (h.symm ▸ List.mem_cons_self _ _) (to_string_no_minus _)
  · rw [if_neg hi, if_neg hj] at h
    have := to_string_injective h
    omega

theorem hashStep_eq (h : Nat) (c : Byte) : hashStep h c = (h * 33 + c.val) % 2 ^ 64 := by
  unfold hashStep
  norm_num
  omega

theorem hashStep_lt (h : Nat) (c : Byte) : hashStep h c < 2 ^ 64 := by
  rw [hashStep_eq]
  exact Nat.mod_lt _ (by norm_num)

theorem hashFold_lt (s : Str) (a : Nat) (ha : a < 2 ^ 64) : s.foldl hashStep a < 2 ^ 64 := by
  induction s generalizing a with
  | nil => exact ha
  | cons c s ih => exact ih _ (hashStep_lt a c)

theorem hashAcc_lt (s : Str) : hashAcc s < 2 ^ 64 := hashFold_lt s 5381 (by norm_num)

/-- One round is injective in the accumulator: 33 is odd. -/
theorem hashStep_left_injective (h1 h2 : Nat) (c : Byte) (l1 : h1 < 2 ^ 64) (l2 : h2 < 2 ^ 64)
    (e : hashStep h1 c = hashStep h2 c) : h1 = h2 := by
  rw [hashStep_eq, hashStep_eq] at e
  have e1 : h1 * 33 + c.val ≡ h2 * 33 + c.val [MOD 2 ^ 64] := e
  have e2 : 33 * h1 ≡ 33 * h2 [MOD 2 ^ 64] := by
    have := Nat.ModEq.add_right_cancel' _ e1
    simpa [Nat.mul_comm] using this
  have e3 : h1 ≡ h2 [MOD 2 ^ 64] := Nat.ModEq.cancel_left_of_coprime (by norm_num) e2
  exact Nat.ModEq.eq_of_lt_of_lt e3 l1 l2

/-- One round separates two different bytes. -/
theorem hashStep_byte_ne (h : Nat) (c d : Byte) (hcd : c ≠ d) : hashStep h c ≠ hashStep h d := by
  intro e
  rw [hashStep_eq, hashStep_eq] at e
  have e1 : h * 33 + c.val ≡ h * 33 + d.val [MOD 2 ^ 64] := e
  have e2 : c.val ≡ d.val [MOD 2 ^ 64] := Nat.ModEq.add_left_cancel' _ e1
  have hc : c.val < 2 ^ 64 := lt_trans c.isLt (by norm_num)
  have hd : d.val < 2 ^ 64 := lt_trans d.isLt (by norm_num)
  exact hcd (Fin.ext (Nat.ModEq.eq_of_lt_of_lt e2 hc hd))

theorem hashFold_ne (s : Str) (h1 h2 : Nat) (l1 : h1 < 2 ^ 64) (l2 : h2 < 2 ^ 64)
    (hne : h1 ≠ h2) : s.foldl hashStep h1 ≠ s.foldl hashStep h2 := by
  induction s generalizing h1 h2 with
  | nil => exact hne
  | cons c s ih =>
    exact ih _ _ (hashStep_lt h1 c) (hashStep_lt h2 c)
      (fun e => hne (hashStep_left_injective h1 h2 c l1 l2 e))

theorem OneByte.context {x y : Str} (p s : Str) (h : OneByte x y) :
    OneByte (p ++ (x ++ s)) (p ++ (y ++ s)) := by
  obtain ⟨u, c, d, w, hcd, rfl, rfl⟩ := h
  exact ⟨p ++ u, c, d, w ++ s, hcd, by simp, by simp⟩

/-- The hash tells apart two inputs that differ in exactly one byte. -/
theorem simpleHash_ne_of_oneByte {x y : Str} (h : OneByte x y) :
    simpleHash x ≠ simpleHash y := by
  obtain ⟨u, c, d, w, hcd, rfl, rfl⟩ := h
  intro e
  have e1 := to_string_injective e
  simp only [hashAcc, List.foldl_append, List.foldl_cons] at e1
  exact hashFold_ne w _ _ (hashStep_lt _ c) (hashStep_lt _ d) (hashStep_byte_ne _ c d hcd) e1

/-- The stream of `calculateBlockHash` is the header followed by the
transactions' texts one after another. -/
theorem serializeFold_eq (ts : List Transaction) (init : Str) :
    ts.foldl (fun oss t => oss ++ serializeTransaction t) init
      = init ++ ts.foldl (fun oss t => oss ++ serializeTransaction t) [] := by
  induction ts generalizing init with
  | nil => simp
  | cons t ts ih =>
    simp only [List.foldl_cons, List.nil_append]
    rw [ih, ih (serializeTransaction t), List.append_assoc]

theorem serializeBlock_split (before after : List Transaction) (t : Transaction)
    (prevHash hash : Str) (timestamp : Int) :
    serializeBlock { transactions := before ++ t :: after, prevHash := prevHash,
                     hash := hash, timestamp := timestamp }
      = before.foldl (fun oss t => oss ++ serializeTransaction t) (prevHash ++ showInt timestamp)
        ++ (serializeTransaction t
          ++ after.foldl (fun oss t => oss ++ serializeTransaction t) []) := by
  simp only [serializeBlock, List.foldl_append, List.foldl_cons]
  rw [serializeFold_eq]
  simp

theorem typeText (a : TransactionType) :
    showInt a.toInt = [digitByte a.toInt.natAbs] := by
  cases a <;> decide

theorem typeText_oneByte (a b : TransactionType) (h : a ≠ b) :
    OneByte (showInt a.toInt) (showInt b.toInt) := by
  refine ⟨[], digitByte a.toInt.natAbs, digitByte b.toInt.natAbs, [], ?_, typeText a, typeText b⟩
  cases a <;> cases b <;> first | exact absurd rfl h | decide

theorem OneByte.ne {x y : Str} (h : OneByte x y) : x ≠ y := by
  obtain ⟨u, c, d, w, hcd, rfl, rfl⟩ := h
  intro e
  exact hcd (List.cons.inj (List.append_cancel_left e)).1

theorem append_context_ne {x y : Str} (p s : Str) (h : x ≠ y) :
    p ++ (x ++ s) ≠ p ++ (y ++ s) := by
  intro e
  exact h (List.append_cancel_right (List.append_cancel_left e))

theorem serializeTransaction_singleFieldChange {t t' : Transaction}
    (h : SingleFieldChange t t') :
    ∃ p x y s, x ≠ y ∧ serializeTransaction t = p ++ (x ++ s)
      ∧ serializeTransaction t' = p ++ (y ++ s) := by
  cases h with
  | type v h =>
    refine ⟨[], showInt t.type.toInt, showInt v.toInt,
      t.owner ++ t.dataHash ++ t.metadata ++ t.recipient ++ t.requester ++ showInt t.timestamp, ?_, by simp [serializeTransaction], by simp [serializeTransaction]⟩
    exact (typeText_oneByte _ _ (Ne.symm h)).ne
  | owner v h =>
    exact ⟨showInt t.type.toInt, t.owner, v,
      t.dataHash ++ t.metadata ++ t.recipient ++ t.requester ++ showInt t.timestamp, Ne.symm h,
      by simp [serializeTransaction], by simp [serializeTransaction]⟩
  | dataHash v h =>
    exact ⟨showInt t.type.toInt ++ t.owner, t.dataHash, v,
      t.metadata ++ t.recipient ++ t.requester ++ showInt t.timestamp, Ne.symm h,
      by simp [serializeTransaction], by simp [serializeTransaction]⟩
  | metadata v h =>
    exact ⟨showInt t.type.toInt ++ t.owner ++ t.dataHash, t.metadata, v,
      t.recipient ++ t.requester ++ showInt t.timestamp, Ne.symm h,
      by simp [serializeTransaction], by simp [serializeTransaction]⟩
  | recipient v h =>
    exact ⟨showInt t.type.toInt ++ t.owner ++ t.dataHash ++ t.metadata, t.recipient, v,
      t.requester ++ showInt t.timestamp, Ne.symm h,
      by simp [serializeTransaction], by simp [serializeTransaction]⟩
  | requester v h =>
    exact ⟨showInt t.type.toInt ++ t.owner ++ t.dataHash ++ t.metadata ++ t.recipient, t.requester, v,
      showInt t.timestamp, Ne.symm h,
      by simp [serializeTransaction], by simp [serializeTransaction]⟩
  | timestamp v h =>
    exact ⟨showInt t.type.toInt ++ t.owner ++ t.dataHash ++ t.metadata ++ t.recipient ++ t.requester,
      showInt t.timestamp, showInt v, [], fun e => h (showInt_injective e).symm,
      by simp [serializeTransaction], by simp [serializeTransaction]⟩

theorem serializeTransaction_oneByteChange {t t' : Transaction} (h : OneByteChange t t') :
    ∃ p x y s, OneByte x y ∧ serializeTransaction t = p ++ (x ++ s)
      ∧ serializeTransaction t' = p ++ (y ++ s) := by
  cases h with
  | type v h =>
    exact ⟨[], showInt t.type.toInt, showInt v.toInt,
      t.owner ++ t.dataHash ++ t.metadata ++ t.recipient ++ t.requester ++ showInt t.timestamp, typeText_oneByte _ _ (Ne.symm h),
      by simp [serializeTransaction], by simp [serializeTransaction]⟩
  | owner v h =>
    exact ⟨showInt t.type.toInt, t.owner, v,
      t.dataHash ++ t.metadata ++ t.recipient ++ t.requester ++ showInt t.timestamp, h,
      by simp [serializeTransaction], by simp [serializeTransaction]⟩
  | dataHash v h =>
    exact ⟨showInt t.type.toInt ++ t.owner, t.dataHash, v,
      t.metadata ++ t.recipient ++ t.requester ++ showInt t.timestamp, h,
      by simp [serializeTransaction], by simp [serializeTransaction]⟩
  | metadata v h =>
    exact ⟨showInt t.type.toInt ++ t.owner ++ t.dataHash, t.metadata, v,
      t.recipient ++ t.requester ++ showInt t.timestamp, h,
      by simp [serializeTransaction], by simp [serializeTransaction]⟩
  | recipient v h =>
    exact ⟨showInt t.type.toInt ++ t.owner ++ t.dataHash ++ t.metadata, t.recipient, v,
      t.requester ++ showInt t.timestamp, h,
      by simp [serializeTransaction], by simp [serializeTransaction]⟩
  | requester v h =>
    exact ⟨showInt t.type.toInt ++ t.owner ++ t.dataHash ++ t.metadata ++ t.recipient, t.requester, v,
      showInt t.timestamp, h,
      by simp [serializeTransaction], by simp [serializeTransaction]⟩
  | timestamp v h =>
    exact ⟨showInt t.type.toInt ++ t.owner ++ t.dataHash ++ t.metadata ++ t.recipient ++ t.requester,
      showInt t.timestamp, showInt v, [], h,
      by simp [serializeTransaction], by simp [serializeTransaction]⟩

/-! ## Hash sensitivity -/

/-- C10, as stated, fails: in a block with one REGISTER transaction, replacing
the owner `"aa"` by the different value `"b@"` leaves `calculateBlockHash`
unchanged (DJB2 maps both texts to the same accumulator). -/
theorem hash_sensitivity_fails_on_collision :
    lit "b@" ≠ lit "aa"
    ∧ calculateBlockHash
        { transactions := [{ type := .REGISTER, owner := lit "b@", dataHash := lit "h1",
                             timestamp := 1 }],
          prevHash := lit "0", hash := [], timestamp := 1 }
      = calculateBlockHash
        { transactions := [{ type := .REGISTER, owner := lit "aa", dataHash := lit "h1",
                             timestamp := 1 }],
          prevHash := lit "0", hash := [], timestamp := 1 } := by
  decide

/-- C10, amended. For every block and every transaction in it, replacing the
value of a single field by a different value, everything else kept the same,
changes the text that `calculateBlockHash` hashes; the hash itself changes
whenever the replaced field is the type, or the text written for the field
keeps its length and changes in exactly one byte. -/
theorem hash_sensitivity (before after : List Transaction) (t t' : Transaction)
    (prevHash hash : Str) (timestamp : Int) (h : SingleFieldChange t t') :
    serializeBlock { transactions := before ++ t' :: after, prevHash := prevHash,
                     hash := hash, timestamp := timestamp }
      ≠ serializeBlock { transactions := before ++ t :: after, prevHash := prevHash,
                         hash := hash, timestamp := timestamp }
    ∧ (OneByteChange t t' →
        calculateBlockHash { transactions := before ++ t' :: after, prevHash := prevHash,
                             hash := hash, timestamp := timestamp }
          ≠ calculateBlockHash { transactions := before ++ t :: after, prevHash := prevHash,
                                 hash := hash, timestamp := timestamp }) := by
  constructor
  · obtain ⟨p, x, y, s, hxy, ht, ht'⟩ := serializeTransaction_singleFieldChange h
    rw [serializeBlock_split, serializeBlock_split, ht, ht']
    exact (append_context_ne _ _ (append_context_ne p s hxy)).symm
  · intro hb
    obtain ⟨p, x, y, s, hxy, ht, ht'⟩ := serializeTransaction_oneByteChange hb
    unfold calculateBlockHash
    rw [serializeBlock_split, serializeBlock_split, ht, ht']
    exact (simpleHash_ne_of_oneByte ((hxy.context p s).context _ _)).symm

/-- C10 (amended) at a concrete block: the owner `"aa"` replaced by `"ab"`. -/
theorem hash_sensitivity_witness :
    serializeBlock
        { transactions := [{ type := .REGISTER, owner := lit "ab", dataHash := lit "h1",
                             timestamp := 1 }],
          prevHash := lit "0", hash := [], timestamp := 1 }
      ≠ serializeBlock
        { transactions := [{ type := .REGISTER, owner := lit "aa", dataHash := lit "h1",
                             timestamp := 1 }],
          prevHash := lit "0", hash := [], timestamp := 1 }
    ∧ calculateBlockHash
        { transactions := [{ type := .REGISTER, owner := lit "ab", dataHash := lit "h1",
                             timestamp := 1 }],
          prevHash := lit "0", hash := [], timestamp := 1 }
      ≠ calculateBlockHash
        { transactions := [{ type := .REGISTER, owner := lit "aa", dataHash := lit "h1",
                             timestamp := 1 }],
          prevHash := lit "0", hash := [], timestamp := 1 } :=
  ⟨(hash_sensitivity [] []
      { type := .REGISTER, owner := lit "aa", dataHash := lit "h1", timestamp := 1 }
      { type := .REGISTER, owner := lit "ab", dataHash := lit "h1", timestamp := 1 }
      (lit "0") [] 1 (SingleFieldChange.owner (lit "ab") (by decide))).1,
   (hash_sensitivity [] []
      { type := .REGISTER, owner := lit "aa", dataHash := lit "h1", timestamp := 1 }
      { type := .REGISTER, owner := lit "ab", dataHash := lit "h1", timestamp := 1 }
      (lit "0") [] 1 (SingleFieldChange.owner (lit "ab") (by decide))).2
      (OneByteChange.owner (lit "ab") ⟨lit "a", 97, 98, [], by decide, by decide, by decide⟩)⟩

/-! ## The dispatch claims -/

/-- C11. Unknown paths are inert: for every POST request whose path is not one
of `/register`, `/grant`, `/revoke`, `/request`, every parameters map and every
state, the response body is exactly "Unknown POST endpoint" and the state (the
chain and both maps of the table) is unchanged. -/
theorem unknown_path_inert (st : State) (req : Request) (hm : req.method = lit "POST")
    (hp : recognised req.path = false) :
    (processRequest st req).2 = lit "Unknown POST endpoint"
    ∧ (processRequest st req).1.blockchain.chain = st.blockchain.chain
    ∧ (processRequest st req).1.dataManager.ownerData = st.dataManager.ownerData
    ∧ (processRequest st req).1.dataManager.accessList = st.dataManager.accessList := by
  have h := hp
  simp only [recognised, Bool.or_eq_false_iff, decide_eq_false_iff_not] at h
  obtain ⟨⟨⟨h1, h2⟩, h3⟩, h4⟩ := h
  simp [processRequest, hm, h1, h2, h3, h4]

/-- C11 at a concrete request: a POST to `/other` on the initial state. -/
theorem unknown_path_inert_witness :
    (processRequest (State.init 0) (post "/other" [("owner", "alice")] 1 1)).2
      = lit "Unknown POST endpoint"
    ∧ (processRequest (State.init 0) (post "/other" [("owner", "alice")] 1 1)).1.blockchain.chain
      = (State.init 0).blockchain.chain :=
  ⟨(unknown_path_inert (State.init 0) (post "/other" [("owner", "alice")] 1 1)
      (by decide) (by decide)).1,
   (unknown_path_inert (State.init 0) (post "/other" [("owner", "alice")] 1 1)
      (by decide) (by decide)).2.1⟩

/-- C12. Status strings mirror the table operation's boolean: for a POST
request, `/register` answers "Registration successful"; `/grant` answers
"Access granted" exactly when `grantAccess` on the given owner, dataHash and
recipient returns true and "Grant failed" otherwise; `/revoke` answers
"Access revoked" exactly when `revokeAccess` returns true and "Revoke failed"
otherwise; `/request` answers "Access granted to requester" exactly when
`requestAccess` returns true and "Access denied" otherwise. -/
theorem status_mirrors_table_result (st : State) (req : Request)
    (hm : req.method = lit "POST") :
    (req.path = lit "/register" →
      (processRequest st req).2 = lit "Registration successful"
      ∧ (processRequest st req).2 ≠ lit "Registration failed")
    ∧ (req.path = lit "/grant" →
      (processRequest st req).2
        = (if (st.dataManager.grantAccess (req.param "owner") (req.param "dataHash")
                (req.param "recipient")).1
           then lit "Access granted" else lit "Grant failed")
      ∧ ((processRequest st req).2 = lit "Access granted" ↔
          (st.dataManager.grantAccess (req.param "owner") (req.param "dataHash")
            (req.param "recipient")).1 = true))
    ∧ (req.path = lit "/revoke" →
      (processRequest st req).2
        = (if (st.dataManager.revokeAccess (req.param "owner") (req.param "dataHash")
                (req.param "recipient")).1
           then lit "Access revoked" else lit "Revoke failed")
      ∧ ((processRequest st req).2 = lit "Access revoked" ↔
          (st.dataManager.revokeAccess (req.param "owner") (req.param "dataHash")
            (req.param "recipient")).1 = true))
    ∧ (req.path = lit "/request" →
      (processRequest st req).2
        = (if (st.dataManager.requestAccess (req.param "requester")
                (req.param "dataHash")).1
           then lit "Access granted to requester" else lit "Access denied")
      ∧ ((processRequest st req).2 = lit "Access granted to requester" ↔
          (st.dataManager.requestAccess (req.param "requester")
            (req.param "dataHash")).1 = true)) := by
  refine ⟨fun hp => ?_, fun hp => ?_, fun hp => ?_, fun hp => ?_⟩
  · have e : (processRequest st req).2 = lit "Registration successful" := by
      simp [processRequest, hm, hp, DataManager.registerData]
    rw [e]
    exact ⟨rfl, by decide⟩
  · have e : (processRequest st req).2
        = (if (st.dataManager.grantAccess (req.param "owner") (req.param "dataHash")
                (req.param "recipient")).1
           then lit "Access granted" else lit "Grant failed") := by
      simp +decide [processRequest, hm, hp]
    rw [e]
    refine ⟨rfl, ?_⟩
    cases (st.dataManager.grantAccess (req.param "owner") (req.param "dataHash")
      (req.param "recipient")).1 <;> simp +decide
  · have e : (processRequest st req).2
        = (if (st.dataManager.revokeAccess (req.param "owner") (req.param "dataHash")
                (req.param "recipient")).1
           then lit "Access revoked" else lit "Revoke failed") := by
      simp +decide [processRequest, hm, hp]
    rw [e]
    refine ⟨rfl, ?_⟩
    cases (st.dataManager.revokeAccess (req.param "owner") (req.param "dataHash")
      (req.param "recipient")).1 <;> simp +decide
  · have e : (processRequest st req).2
        = (if (st.dataManager.requestAccess (req.param "requester")
                (req.param "dataHash")).1
           then lit "Access granted to requester" else lit "Access denied") := by
      simp +decide [processRequest, hm, hp]
    rw [e]
    refine ⟨rfl, ?_⟩
    cases (st.dataManager.requestAccess (req.param "requester")
      (req.param "dataHash")).1 <;> simp +decide

/-- C12 at a concrete request: a `/grant` on the initial state. -/
theorem status_mirrors_table_result_witness :
    (processRequest (State.init 0)
        (post "/grant" [("owner", "alice"), ("dataHash", "h1"), ("recipient", "bob")] 1 1)).2
      = lit "Access granted" ↔
    ((State.init 0).dataManager.grantAccess
      ((post "/grant" [("owner", "alice"), ("dataHash", "h1"), ("recipient", "bob")] 1 1).param
        "owner")
      ((post "/grant" [("owner", "alice"), ("dataHash", "h1"), ("recipient", "bob")] 1 1).param
        "dataHash")
      ((post "/grant" [("owner", "alice"), ("dataHash", "h1"), ("recipient", "bob")] 1 1).param
        "recipient")).1 = true :=
  ((status_mirrors_table_result (State.init 0)
    (post "/grant" [("owner", "alice"), ("dataHash", "h1"), ("recipient", "bob")] 1 1)
    (by decide)).2.1 (by decide)).2

/-- C13. Every attempt is recorded, successful or not: for each of the four
recognised paths, every state and every parameters map, handling a POST
request appends exactly one block; that block holds exactly one transaction,
of the type of the path, with the fields of the path copied from the
parameters (Register: owner, dataHash, metadata; Grant and Revoke: owner,
dataHash, recipient; Request: dataHash, requester), every other string field
empty and the time read in the branch as timestamp. -/
theorem every_attempt_recorded (st : State) (req : Request) (hm : req.method = lit "POST") :
    (req.path = lit "/register" →
      ∃ b, (processRequest st req).1.blockchain.chain = st.blockchain.chain ++ [b]
        ∧ b.transactions =
          [{ type := .REGISTER, owner := req.param "owner", dataHash := req.param "dataHash",
             metadata := req.param "metadata", recipient := [], requester := [],
             timestamp := req.txTime }])
    ∧ (req.path = lit "/grant" →
      ∃ b, (processRequest st req).1.blockchain.chain = st.blockchain.chain ++ [b]
        ∧ b.transactions =
          [{ type := .GRANT, owner := req.param "owner", dataHash := req.param "dataHash",
             metadata := [], recipient := req.param "recipient", requester := [],
             timestamp := req.txTime }])
    ∧ (req.path = lit "/revoke" →
      ∃ b, (processRequest st req).1.blockchain.chain = st.blockchain.chain ++ [b]
        ∧ b.transactions =
          [{ type := .REVOKE, owner := req.param "owner", dataHash := req.param "dataHash",
             metadata := [], recipient := req.param "recipient", requester := [],
             timestamp := req.txTime }])
    ∧ (req.path = lit "/request" →
      ∃ b, (processRequest st req).1.blockchain.chain = st.blockchain.chain ++ [b]
        ∧ b.transactions =
          [{ type := .REQUEST, owner := [], dataHash := req.param "dataHash",
             metadata := [], recipient := [], requester := req.param "requester",
             timestamp := req.txTime }]) := by
  refine ⟨fun hp => ?_, fun hp => ?_, fun hp => ?_, fun hp => ?_⟩
  · refine ⟨sealed { timestamp := req.blockTime, prevHash := st.blockchain.back.hash }
      { type := .REGISTER, owner := req.param "owner", dataHash := req.param "dataHash",
        metadata := req.param "metadata", timestamp := req.txTime }, ?_, ?_⟩
    · simp only [processRequest, hm, hp, if_true, DataManager.registerData, sealAndAdd_chain]
    · simp [sealed]
  · refine ⟨sealed { timestamp := req.blockTime, prevHash := st.blockchain.back.hash }
      { type := .GRANT, owner := req.param "owner", dataHash := req.param "dataHash",
        recipient := req.param "recipient", timestamp := req.txTime }, ?_, ?_⟩
    · simp +decide only [processRequest, hm, hp, if_true, if_false, sealAndAdd_chain]
    · simp [sealed]
  · refine ⟨sealed { timestamp := req.blockTime, prevHash := st.blockchain.back.hash }
      { type := .REVOKE, owner := req.param "owner", dataHash := req.param "dataHash",
        recipient := req.param "recipient", timestamp := req.txTime }, ?_, ?_⟩
    · simp +decide only [processRequest, hm, hp, if_true, if_false, sealAndAdd_chain]
    · simp [sealed]
  · refine ⟨sealed { timestamp := req.blockTime, prevHash := st.blockchain.back.hash }
      { type := .REQUEST, requester := req.param "requester",
        dataHash := req.param "dataHash", timestamp := req.txTime }, ?_, ?_⟩
    · simp +decide only [processRequest, hm, hp, if_true, if_false, sealAndAdd_chain]
    · simp [sealed]

/-- C13 at a concrete request: a `/grant` that fails (nothing is registered in
the initial state) is recorded all the same. -/
theorem every_attempt_recorded_witness :
    ∃ b, (processRequest (State.init 0)
        (post "/grant" [("owner", "alice"), ("dataHash", "h1")] 1 2)).1.blockchain.chain
        = (State.init 0).blockchain.chain ++ [b]
      ∧ b.transactions =
        [{ type := .GRANT,
           owner := (post "/grant" [("owner", "alice"), ("dataHash", "h1")] 1 2).param "owner",
           dataHash :=
             (post "/grant" [("owner", "alice"), ("dataHash", "h1")] 1 2).param "dataHash",
           metadata := [],
           recipient :=
             (post "/grant" [("owner", "alice"), ("dataHash", "h1")] 1 2).param "recipient",
           requester := [],
           timestamp := (post "/grant" [("owner", "alice"), ("dataHash", "h1")] 1 2).txTime }] :=
  (every_attempt_recorded (State.init 0)
    (post "/grant" [("owner", "alice"), ("dataHash", "h1")] 1 2) (by decide)).2.1 (by decide)

theorem setParam_param_of_absent (req : Request) (key : Str) (hk : req.params key = none)
    (name : String) : (req.setParam key []).param name = req.param name := by
  unfold Request.param Request.setParam
  by_cases h : lit name = key
  · simp [h, hk]
  · simp [h]

/-- C14. Missing parameters are empty strings: handling a request whose
parameters map lacks a key gives the same response body and the same resulting
state (table, recorded transaction and block) as handling the same request
with that key present and mapped to the empty string; the dispatch is a total
function, so no request is rejected or aborted because a key is missing. -/
theorem missing_param_is_empty (st : State) (req : Request) (key : Str)
    (hk : req.params key = none) :
    processRequest st (req.setParam key []) = processRequest st req := by
  have hp := setParam_param_of_absent req key hk
  have h1 : (req.setParam key []).method = req.method := rfl
  have h2 : (req.setParam key []).path = req.path := rfl
  have h3 : (req.setParam key []).blockTime = req.blockTime := rfl
  have h4 : (req.setParam key []).txTime = req.txTime := rfl
  simp only [processRequest, hp, h1, h2, h3, h4]

/-- C14 at a concrete request: a `/register` without `metadata`. -/
theorem missing_param_is_empty_witness :
    processRequest (State.init 0)
        ((post "/register" [("owner", "alice"), ("dataHash", "h1")] 1 2).setParam
          (lit "metadata") [])
      = processRequest (State.init 0)
          (post "/register" [("owner", "alice"), ("dataHash", "h1")] 1 2) :=
  missing_param_is_empty (State.init 0)
    (post "/register" [("owner", "alice"), ("dataHash", "h1")] 1 2) (lit "metadata")
    (by decide)

/-! ## Concurrent handlers -/

/-- A handler that takes its two steps with nothing in between does what the
sequential `processRequest` does. -/
theorem step_step_eq_processRequest (st : State) (req : Request) :
    (Handler.step (Handler.step st (.received req)).1 (Handler.step st (.received req)).2)
      = ((processRequest st req).1, .responded (processRequest st req).2) := by
  by_cases hm : req.method = lit "POST"
  · simp only [Handler.step, hm, if_true, processRequest, completeRequest, prepareBlock]
  · simp [Handler.step, hm, processRequest]

set_option maxRecDepth 100000 in
/-- C15 fails on the code: two `/register` handlers that both read the tip
(line 222, outside any lock) before either appends leave a chain of three
blocks whose last block names the genesis hash, not the hash of the block
before it (the list shows `prevHash` and `hash` of each block). -/
theorem concurrent_handlers_break_linkage :
    ((runSchedule (State.init 0)
        [.received (post "/register" [("owner", "alice"), ("dataHash", "h1")] 1 1),
         .received (post "/register" [("owner", "bob"), ("dataHash", "h2")] 1 1)]
        [0, 1, 0, 1]).2.all Handler.finished = true)
    ∧ ((runSchedule (State.init 0)
        [.received (post "/register" [("owner", "alice"), ("dataHash", "h1")] 1 1),
         .received (post "/register" [("owner", "bob"), ("dataHash", "h2")] 1 1)]
        [0, 1, 0, 1]).1.blockchain.chain.map (fun b => (b.prevHash, b.hash))
      = [(lit "0", lit "7572409341568515"),
         (lit "7572409341568515", lit "6284613306252035446"),
         (lit "7572409341568515", lit "13777307204112341996")]) := by
  decide

/-! ## The hasher claims -/

theorem lit_eq_map (s : String) : lit s = s.toList.map charByte := rfl

theorem charByte_digitChar (d : Nat) (h : d < 10) : charByte (Nat.digitChar d) = digitByte d := by
  interval_cases d <;> decide

theorem to_stringAux_eq_toDigitsCore (fuel n : Nat) (cs : List Char) :
    to_stringAux fuel n (cs.map charByte) = (Nat.toDigitsCore 10 fuel n cs).map charByte := by
  induction fuel generalizing n cs with
  | zero => rfl
  | succ fuel ih =>
    have hd := charByte_digitChar (n % 10) (Nat.mod_lt _ (by decide))
    unfold to_stringAux Nat.toDigitsCore
    by_cases hz : n / 10 = 0
    · simp [hz, hd]
    · simp only [hz, if_false]
      rw [← hd, ← List.map_cons, ih]

/-- The model of `std::to_string` agrees with the decimal printing of the
natural numbers in the Lean library. -/
theorem to_string_eq_repr (n : Nat) : to_string n = lit (Nat.repr n) := by
  rw [lit_eq_map, to_string]
  exact to_stringAux_eq_toDigitsCore (n + 1) n []

theorem to_stringAux_digit_bytes (fuel n : Nat) (acc : Str) (b : Byte)
    (hb : b ∈ to_stringAux fuel n acc) : b ∈ acc ∨ (48 ≤ b.val ∧ b.val ≤ 57) := by
  induction fuel generalizing n acc with
  | zero => exact Or.inl hb
  | succ fuel ih =>
    have hd : 48 ≤ (digitByte (n % 10)).val ∧ (digitByte (n % 10)).val ≤ 57 := by
      rw [digitByte_val _ (Nat.mod_lt _ (by decide))]
      omega
    unfold to_stringAux at hb
    by_cases hz : n / 10 = 0
    · rw [if_pos hz] at hb
      rcases List.mem_cons.1 hb with h | h
      · exact Or.inr (h ▸ hd)
      · exact Or.inl h
    · rw [if_neg hz] at hb
      rcases ih _ _ hb with h | h
      · rcases List.mem_cons.1 h with h | h
        · exact Or.inr (h ▸ hd)
        · exact Or.inl h
      · exact Or.inr h

theorem to_stringAux_head (fuel n : Nat) (acc : Str) (hn : n ≠ 0) (hf : n < fuel) :
    ∃ c rest, to_stringAux fuel n acc = c :: rest ∧ c.val ≠ 48 := by
  induction fuel generalizing n acc with
  | zero => omega
  | succ fuel ih =>
    unfold to_stringAux
    by_cases hz : n / 10 = 0
    · rw [if_pos hz]
      refine ⟨_, _, rfl, ?_⟩
      rw [digitByte_val _ (Nat.mod_lt _ (by decide))]
      omega
    · rw [if_neg hz]
      exact ih _ _ hz (by omega)

theorem hashAcc_eq_djb2 (s : Str) : hashAcc s = djb2 s := by
  unfold hashAcc djb2
  congr 1
  funext h c
  exact hashStep_eq h c

/-- C16. `simpleHash` is DJB2 over a 64-bit accumulator: for every byte string
`s`, `simpleHash(s)` is the decimal representation of the value obtained from
5381 by replacing `h` by `(h * 33 + c) mod 2^64` for each byte `c` in order:
it is the decimal text of that value, it reads back to it, it consists of
digits only (no sign) and has no leading zero unless it is `"0"`;
`simpleHash("") = "5381"`; and equal inputs give equal outputs. -/
theorem simpleHash_is_djb2 (s : Str) :
    simpleHash s = to_string (djb2 s)
    ∧ simpleHash s = lit (Nat.repr (djb2 s))
    ∧ decimalValue (simpleHash s) = djb2 s
    ∧ (∀ b ∈ simpleHash s, 48 ≤ b.val ∧ b.val ≤ 57)
    ∧ (simpleHash s = lit "0" ∨ ∃ c rest, simpleHash s = c :: rest ∧ c.val ≠ 48)
    ∧ simpleHash (lit "") = lit "5381"
    ∧ ∀ s2 : Str, s2 = s → simpleHash s2 = simpleHash s := by
  have e : simpleHash s = to_string (djb2 s) := by rw [simpleHash, hashAcc_eq_djb2]
  refine ⟨e, ?_, ?_, ?_, ?_, by decide, fun s2 h => by rw [h]⟩
  · rw [e, to_string_eq_repr]
  · rw [e, decimalValue_to_string]
  · intro b hb
    rw [e] at hb
    rcases to_stringAux_digit_bytes _ _ _ _ hb with h | h
    · cases h
    · exact h
  · rw [e]
    by_cases h0 : djb2 s = 0
    · left
      rw [h0]
      decide
    · right
      exact to_stringAux_head _ _ _ h0 (Nat.lt_succ_self _)

/-- The model of `ostream << x` for signed integers agrees with the decimal
printing of the integers in the Lean library. -/
theorem showInt_eq_toString (i : Int) : showInt i = lit (toString i) := by
  cases i with
  | ofNat n =>
    have h : ¬ (Int.ofNat n < 0) := by simp
    rw [showInt, if_neg h, to_string_eq_repr]
    rfl
  | negSucc n =>
    have h : Int.negSucc n < 0 := Int.negSucc_lt_zero n
    rw [showInt, if_pos h, to_string_eq_repr]
    rfl

theorem typeDigit_eq (a : TransactionType) : typeDigit a = showInt a.toInt := by
  cases a <;> decide

theorem serializeFold_eq_flatten (ts : List Transaction) :
    ts.foldl (fun oss t => oss ++ serializeTransaction t) []
      = (ts.map serializeTransaction).flatten := by
  induction ts with
  | nil => rfl
  | cons t ts ih =>
    rw [List.foldl_cons, serializeFold_eq, ih]
    simp

theorem serializeBlock_eq_spec (b : Block) : serializeBlock b = serializationSpec b := by
  unfold serializeBlock serializationSpec
  rw [serializeFold_eq, serializeFold_eq_flatten]
  congr 2
  apply List.map_congr_left
  intro t _
  simp [serializeTransaction, typeDigit_eq]

/-- C17. `calculateBlockHash` uses a fixed serialization and ignores the stored
hash field: for every block `b` it is `simpleHash` of the concatenation of
`prevHash`, the decimal text of the timestamp and, for each transaction in
order, the decimal text of its type, owner, dataHash, metadata, recipient,
requester and the decimal text of its timestamp, with no separators; so two
blocks that agree on prevHash, timestamp and transactions have equal computed
hashes whatever their hash fields contain. (The decimal text of a timestamp is
the one the Lean library prints for the integer.) -/
theorem calculateBlockHash_serialization (b : Block) (h1 h2 : Str) :
    calculateBlockHash b = simpleHash (serializationSpec b)
    ∧ calculateBlockHash { b with hash := h1 } = calculateBlockHash { b with hash := h2 }
    ∧ showInt b.timestamp = lit (toString b.timestamp) := by
  exact ⟨by rw [calculateBlockHash, serializeBlock_eq_spec], rfl, showInt_eq_toString _⟩

/-! ## The sealed-hash invariant -/

theorem sealed_hash (block : Block) (t : Transaction) :
    (sealed block t).hash = calculateBlockHash (sealed block t) := rfl

theorem sealedChain_init (now : Int) : SealedChain (State.init now).blockchain.chain :=
  ⟨_, [], rfl, rfl, rfl, fun _ h => by cases h⟩

theorem sealedChain_processRequest (st : State) (req : Request)
    (h : SealedChain st.blockchain.chain) :
    SealedChain (processRequest st req).1.blockchain.chain := by
  rcases processRequest_chain st req with ⟨_, _, t, ht⟩ | ⟨_, hsame⟩
  · rw [ht]
    obtain ⟨g, rest, hc, hg1, hg2, hrest⟩ := h
    refine ⟨g, rest ++ [_], by rw [hc]; rfl, hg1, hg2, ?_⟩
    intro b hb
    rcases List.mem_append.1 hb with hb | hb
    · exact hrest b hb
    · rw [List.mem_singleton.1 hb]
      exact sealed_hash _ t
  · rw [hsame]
    exact h

theorem sealedChain_processAll (reqs : List Request) (st : State)
    (h : SealedChain st.blockchain.chain) :
    SealedChain (processAll st reqs).1.blockchain.chain := by
  induction reqs generalizing st with
  | nil => exact h
  | cons req rest ih =>
    simp only [processAll]
    exact ih _ (sealedChain_processRequest st req h)

theorem genesis_timestamp_processAll (reqs : List Request) (st : State) :
    (processAll st reqs).1.blockchain.chain.head? = st.blockchain.chain.head?
      ∨ st.blockchain.chain = [] := by
  induction reqs generalizing st with
  | nil => exact Or.inl rfl
  | cons req rest ih =>
    simp only [processAll]
    by_cases hne : st.blockchain.chain = []
    · exact Or.inr hne
    · left
      have hstep : (processRequest st req).1.blockchain.chain.head?
          = st.blockchain.chain.head? := by
        rcases processRequest_chain st req with ⟨_, _, t, ht⟩ | ⟨_, hsame⟩
        · rw [ht, List.head?_append_of_ne_nil _ hne]
        · rw [hsame]
      rcases ih (processRequest st req).1 with h | h
      · rw [h, hstep]
      · rw [h] at hstep
        cases hc : st.blockchain.chain with
        | nil => exact absurd hc hne
        | cons a l => rw [hc] at hstep; cases hstep

/-- C18. Sealed-hash invariant: in every state reached from the initial state
by sequentially handled requests, the chain starts with the genesis block,
which has no transactions and `hash == simpleHash("genesis" + timestamp)` for
the time read by the constructor, and every later block `b` satisfies
`b.hash == calculateBlockHash(b)` over its final prevHash, timestamp and
transactions. -/
theorem sealed_hash_invariant (now : Int) (reqs : List Request) :
    ∃ g rest, (processAll (State.init now) reqs).1.blockchain.chain = g :: rest
      ∧ g.transactions = []
      ∧ g.timestamp = now
      ∧ g.hash = simpleHash (lit "genesis" ++ showInt now)
      ∧ ∀ b ∈ rest, b.hash = calculateBlockHash b := by
  obtain ⟨g, rest, hc, hg1, hg2, hrest⟩ :=
    sealedChain_processAll reqs _ (sealedChain_init now)
  have hts : g.timestamp = now := by
    rcases genesis_timestamp_processAll reqs (State.init now) with h | h
    · rw [hc] at h
      simp only [List.head?_cons, State.init, Blockchain.new, Option.some.injEq] at h
      rw [h]
    · cases h
  exact ⟨g, rest, hc, hg1, hts, hts ▸ hg2, hrest⟩

/-! ## The table invariants -/

theorem VecMap.index_of_some (m : VecMap) (k : Str) (v : List Str) (h : m k = some v) :
    m.index k = v := by
  simp [VecMap.index, h]

theorem VecMap.index_set_other (m : VecMap) (k j : Str) (v : List Str) (h : j ≠ k) :
    (m.set k v).index j = m.index j := by
  simp [VecMap.index, VecMap.set, h]

/-- No call removes an entry from `ownerData`: the list of every owner is a
prefix of its list after the call. -/
theorem ownerData_grows (dm : DataManager) (op : TableOp) (o : Str) (items : List Str)
    (h : dm.ownerData o = some items) :
    ∃ items2, (dm.call op).2.ownerData o = some items2 ∧ items <+: items2 := by
  cases op with
  | registerData owner dataHash metadata =>
    by_cases ho : o = owner
    · subst ho
      refine ⟨items ++ [dataHash], ?_, List.prefix_append _ _⟩
      simp [DataManager.call, DataManager.registerData, VecMap.set_self,
        VecMap.index_of_some _ _ _ h]
    · exact ⟨items, by simp [DataManager.call, DataManager.registerData,
        VecMap.set_other _ _ _ _ ho, h], List.prefix_refl _⟩
  | grantAccess owner dataHash recipient =>
    refine ⟨items, ?_, List.prefix_refl _⟩
    simp only [DataManager.call, DataManager.grantAccess]
    split
    · exact h
    · split <;> exact h
  | revokeAccess owner dataHash recipient =>
    refine ⟨items, ?_, List.prefix_refl _⟩
    simp only [DataManager.call, DataManager.revokeAccess]
    split
    · exact h
    · split
      · exact h
      · split <;> exact h
  | requestAccess requester dataHash =>
    refine ⟨items, ?_, List.prefix_refl _⟩
    simp only [DataManager.call, DataManager.requestAccess]
    split <;> exact h

theorem accessListsRegistered_set (dm : DataManager) (owner dataHash : Str)
    (items v : List Str) (hinv : AccessListsRegistered dm)
    (hown : dm.ownerData owner = some items) (hmem : dataHash ∈ items) :
    AccessListsRegistered { dm with accessList := dm.accessList.set dataHash v } := by
  intro d hd
  by_cases hk : d = dataHash
  · subst hk
    exact ⟨owner, items, hown, hmem⟩
  · have hd2 : dm.accessList.set dataHash v d ≠ none := hd
    rw [VecMap.set_other _ _ _ _ hk] at hd2
    exact hinv d hd2

theorem accessListsRegistered_call (dm : DataManager) (op : TableOp)
    (hinv : AccessListsRegistered dm) : AccessListsRegistered (dm.call op).2 := by
  cases op with
  | registerData owner dataHash metadata =>
    intro d hd
    obtain ⟨o, items, ho, hmem⟩ := hinv d hd
    obtain ⟨items2, h2, hpre⟩ :=
      ownerData_grows dm (.registerData owner dataHash metadata) o items ho
    exact ⟨o, items2, h2, hpre.subset hmem⟩
  | grantAccess owner dataHash recipient =>
    simp only [DataManager.call, DataManager.grantAccess]
    split
    · exact hinv
    · rename_i items hown
      split
      · exact hinv
      · rename_i hc
        exact accessListsRegistered_set dm owner dataHash items _ hinv hown
          (by by_contra hno; exact hc (List.count_eq_zero.2 hno))
  | revokeAccess owner dataHash recipient =>
    simp only [DataManager.call, DataManager.revokeAccess]
    split
    · exact hinv
    · rename_i items hown
      split
      · exact hinv
      · rename_i hc
        have hmem : dataHash ∈ items := by
          by_contra hno
          exact hc (List.count_eq_zero.2 hno)
        split
        · exact accessListsRegistered_set dm owner dataHash items _ hinv hown hmem
        · exact accessListsRegistered_set dm owner dataHash items _ hinv hown hmem
  | requestAccess requester dataHash =>
    simp only [DataManager.call, DataManager.requestAccess]
    split <;> exact hinv

theorem accessListsRegistered_callAll (ops : List TableOp) (dm : DataManager)
    (hinv : AccessListsRegistered dm) : AccessListsRegistered (dm.callAll ops).2 := by
  induction ops generalizing dm with
  | nil => exact hinv
  | cons op rest ih =>
    simp only [DataManager.callAll]
    exact ih _ (accessListsRegistered_call dm op hinv)

/-- C19. Access lists only exist for registered data: in every table state
reached from the empty table by a sequence of `registerData`, `grantAccess`,
`revokeAccess` and `requestAccess` calls, every dataHash that is a key of
`accessList` occurs in `ownerData[o]` for at least one owner `o`; and no call
removes an entry from `ownerData` (each owner's list before a call is a prefix
of its list after it). -/
theorem access_lists_only_for_registered (ops : List TableOp) :
    (∀ d, (DataManager.new.callAll ops).2.accessList d ≠ none →
      ∃ o items, (DataManager.new.callAll ops).2.ownerData o = some items ∧ d ∈ items)
    ∧ ∀ (dm : DataManager) (op : TableOp) (o : Str) (items : List Str),
        dm.ownerData o = some items →
        ∃ items2, (dm.call op).2.ownerData o = some items2 ∧ items <+: items2 := by
  refine ⟨accessListsRegistered_callAll ops DataManager.new ?_, ownerData_grows⟩
  intro d hd
  exact absurd rfl hd

/-! ## A failed revoke -/

theorem requestAccess_index (dm : DataManager) (requester dataHash : Str) :
    (dm.requestAccess requester dataHash).1 = decide (requester ∈ dm.accessList.index dataHash)
    ∧ (dm.requestAccess requester dataHash).2 = dm := by
  unfold DataManager.requestAccess VecMap.index
  cases h : dm.accessList dataHash with
  | none => simp
  | some vec => simp [List.count_eq_zero]

theorem sameLists_set (dm1 dm2 : DataManager) (h : SameLists dm1 dm2) (d : Str)
    (v : List Str) :
    SameLists { dm1 with accessList := dm1.accessList.set d v }
      { dm2 with accessList := dm2.accessList.set d v } := by
  refine ⟨h.1, fun k => ?_⟩
  by_cases hk : k = d
  · subst hk
    exact (VecMap.index_set_self _ _ _).trans (VecMap.index_set_self _ _ _).symm
  · exact (VecMap.index_set_other _ _ _ _ hk).trans
      ((h.2 k).trans (VecMap.index_set_other _ _ _ _ hk).symm)

/-- A call returns the same value on two tables with the same lists, and
leaves two tables with the same lists. -/
theorem sameLists_call (dm1 dm2 : DataManager) (h : SameLists dm1 dm2) (op : TableOp) :
    (dm1.call op).1 = (dm2.call op).1 ∧ SameLists (dm1.call op).2 (dm2.call op).2 := by
  have hod := h.1
  have hacc := h.2
  have key := sameLists_set dm1 dm2 h
  simp only [← hod] at key
  cases op with
  | registerData owner dataHash metadata =>
    refine ⟨rfl, ?_, hacc⟩
    simp [DataManager.call, DataManager.registerData, hod]
  | grantAccess owner dataHash recipient =>
    simp only [DataManager.call, DataManager.grantAccess, ← hod, hacc dataHash]
    cases dm1.ownerData owner with
    | none => exact ⟨rfl, h⟩
    | some items =>
      by_cases hc : items.count dataHash = 0
      · simp only [hc, if_true]
        exact ⟨trivial, h⟩
      · simp only [hc, if_false]
        exact ⟨trivial, key _ _⟩
  | revokeAccess owner dataHash recipient =>
    simp only [DataManager.call, DataManager.revokeAccess, ← hod, hacc dataHash]
    cases dm1.ownerData owner with
    | none => exact ⟨rfl, h⟩
    | some items =>
      by_cases hc : items.count dataHash = 0
      · simp only [hc, if_true]
        exact ⟨trivial, h⟩
      · by_cases hr : recipient ∈ dm2.accessList.index dataHash
        · simp only [hc, hr, if_false, if_true]
          exact ⟨trivial, key _ _⟩
        · simp only [hc, hr, if_false]
          exact ⟨trivial, key _ _⟩
  | requestAccess requester dataHash =>
    simp only [DataManager.call]
    rw [(requestAccess_index dm1 _ _).1, (requestAccess_index dm2 _ _).1,
      (requestAccess_index dm1 _ _).2, (requestAccess_index dm2 _ _).2, hacc dataHash]
    exact ⟨rfl, h⟩

theorem sameLists_callAll (ops : List TableOp) (dm1 dm2 : DataManager)
    (h : SameLists dm1 dm2) : (dm1.callAll ops).1 = (dm2.callAll ops).1 := by
  induction ops generalizing dm1 dm2 with
  | nil => rfl
  | cons op rest ih =>
    simp only [DataManager.callAll]
    rw [(sameLists_call dm1 dm2 h op).1, ih _ _ (sameLists_call dm1 dm2 h op).2]

theorem VecMap.set_eq_self (m : VecMap) (k : Str) (v : List Str) (h : m k = some v) :
    m.set k v = m := by
  funext j
  by_cases hj : j = k
  · subst hj
    rw [VecMap.set_self, h]
  · exact VecMap.set_other _ _ _ _ hj

/-- C20. A failed revoke is observably a no-op: whenever
`revokeAccess(owner, dataHash, recipient)` returns false, `ownerData` is
unchanged and the recipient list of every dataHash (an absent key counted as the
empty list) is unchanged, so every later sequence of calls returns the same
results as it would have without the failed revoke; the table is either
unchanged, or the owner/dataHash check passed, dataHash had no access list
and the only change is a new empty `accessList` entry for dataHash. -/
theorem failed_revoke_is_noop (dm : DataManager) (owner dataHash recipient : Str)
    (hfail : (dm.revokeAccess owner dataHash recipient).1 = false) :
    (dm.revokeAccess owner dataHash recipient).2.ownerData = dm.ownerData
    ∧ (∀ k, (dm.revokeAccess owner dataHash recipient).2.accessList.index k
        = dm.accessList.index k)
    ∧ (∀ ops : List TableOp,
        ((dm.revokeAccess owner dataHash recipient).2.callAll ops).1 = (dm.callAll ops).1)
    ∧ ((dm.revokeAccess owner dataHash recipient).2 = dm
      ∨ ((∃ items, dm.ownerData owner = some items ∧ dataHash ∈ items)
        ∧ dm.accessList dataHash = none
        ∧ (dm.revokeAccess owner dataHash recipient).2
            = { dm with accessList := dm.accessList.set dataHash [] })) := by
  have hshape : (dm.revokeAccess owner dataHash recipient).2 = dm
      ∨ ((∃ items, dm.ownerData owner = some items ∧ dataHash ∈ items)
        ∧ dm.accessList dataHash = none
        ∧ (dm.revokeAccess owner dataHash recipient).2
            = { dm with accessList := dm.accessList.set dataHash [] }) := by
    unfold DataManager.revokeAccess at hfail ⊢
    cases hown : dm.ownerData owner with
    | none => exact Or.inl rfl
    | some items =>
      rw [hown] at hfail
      by_cases hc : items.count dataHash = 0
      · simp only [hc, if_true]
        exact Or.inl trivial
      · have hmem : dataHash ∈ items := by
          by_contra hno
          exact hc (List.count_eq_zero.2 hno)
        by_cases hr : recipient ∈ dm.accessList.index dataHash
        · simp [hc, hr] at hfail
        · simp only [hc, hr, if_false]
          cases hacc : dm.accessList dataHash with
          | none =>
            right
            refine ⟨⟨items, rfl, hmem⟩, rfl, ?_⟩
            simp [VecMap.index, hacc]
          | some vec =>
            left
            rw [VecMap.index_of_some _ _ _ hacc, VecMap.set_eq_self _ _ _ hacc]
  have hsame : SameLists (dm.revokeAccess owner dataHash recipient).2 dm := by
    rcases hshape with h | ⟨_, hnone, h⟩
    · rw [h]
      exact ⟨rfl, fun _ => rfl⟩
    · rw [h]
      refine ⟨rfl, fun k => ?_⟩
      by_cases hk : k = dataHash
      · subst hk
        show (dm.accessList.set k []).index k = dm.accessList.index k
        rw [VecMap.index_set_self]
        simp [VecMap.index, hnone]
      · exact VecMap.index_set_other _ _ _ _ hk
  exact ⟨hsame.1, hsame.2, fun ops => sameLists_callAll ops _ _ hsame, hshape⟩

/-- C20 at a concrete table: after `registerData("o", "d", "m")` alone,
`revokeAccess("o", "d", "r")` fails, and later calls cannot tell. -/
theorem failed_revoke_is_noop_witness :
    (((DataManager.new.registerData (lit "o") (lit "d") (lit "m")).2.revokeAccess
        (lit "o") (lit "d") (lit "r")).1 = false)
    ∧ ∀ ops : List TableOp,
        ((((DataManager.new.registerData (lit "o") (lit "d") (lit "m")).2.revokeAccess
            (lit "o") (lit "d") (lit "r")).2).callAll ops).1
          = ((DataManager.new.registerData (lit "o") (lit "d") (lit "m")).2.callAll ops).1 :=
  ⟨by decide,
   (failed_revoke_is_noop (DataManager.new.registerData (lit "o") (lit "d") (lit "m")).2
      (lit "o") (lit "d") (lit "r") (by decide)).2.2.1⟩

end BlockchainDataManager
